import Mathlib

/-!
Verification of the Rangy range/selection formatting engine
(`rangy-commands.js` and the CSS class applier module).

The host document tree is modelled, following the design notes of the
specification (section 9), as an arena of nodes with integer identity:
parent and children are recorded as indices, and the tree-edit primitives
mutate the arena functionally.  Range and Selection values hold node
handles, so boundary synchronisation across an edit is a pure function
over handles.

Helper functions of the Rangy core (the tree adapter: node kind tests,
index/length queries, point comparison) are not part of the analysed
modules; they are modelled from the specification where noted.
-/

namespace Rangy

/-- Node kinds of the host tree (specification section 3). -/
inductive NKind where
  | element
  | text
  | comment
  | document
deriving DecidableEq, Repr

/-- Per-node record: kind, lowercase tag name, character data (for text and
comment nodes), attribute list, computed display value (host-provided for
elements) and the ordered list of child node ids. -/
structure NData where
  kind : NKind
  tag : String := ""
  data : List Char := []
  attrs : List (String × String) := []
  display : String := ""
  children : List Nat := []
deriving DecidableEq, Repr

/-- The arena: node ids are positions in the list. -/
structure Dom where
  nodes : List NData
deriving DecidableEq, Repr

/-- Placeholder record returned for out-of-arena ids. -/
def defaultN : NData := { kind := .element }

def Dom.size (d : Dom) : Nat := d.nodes.length

def Dom.getN (d : Dom) (i : Nat) : NData := d.nodes.getD i defaultN

def Dom.setN (d : Dom) (i : Nat) (nd : NData) : Dom := ⟨d.nodes.set i nd⟩

def Dom.children (d : Dom) (i : Nat) : List Nat := (d.getN i).children

/-- Replace the child list of a node. -/
def Dom.setChildren (d : Dom) (i : Nat) (cs : List Nat) : Dom :=
  d.setN i { d.getN i with children := cs }

/-- Append a fresh node to the arena, returning its id. -/
def Dom.push (d : Dom) (nd : NData) : Dom × Nat :=
  (⟨d.nodes ++ [nd]⟩, d.nodes.length)

/-- Search the arena for the node whose child list contains `c`. -/
def findParentAux (c : Nat) : List NData → Nat → Option Nat
  | [], _ => none
  | nd :: rest, i => if nd.children.contains c then some i else findParentAux c rest (i + 1)

/-- The parent of a node: the (unique, in a well-formed arena) node whose
child list contains it.  Mirrors the host tree's parentNode pointer. -/
def Dom.parentOf (d : Dom) (c : Nat) : Option Nat := findParentAux c d.nodes 0

/-- Number of previous siblings, as in the core helper getNodeIndex;
a parentless node has index 0. -/
def Dom.getNodeIndex (d : Dom) (i : Nat) : Nat :=
  match d.parentOf i with
  | none => 0
  | some p => (d.children p).findIdx (· = i)

/-- Modelled from the spec: the tree adapter's node kind test classifying
text and comment nodes as character data (section 3 gives both a character
sequence; the blockExtend description in section 4.1 climbs at text/comment
nodes). -/
def Dom.isCharacterDataNode (d : Dom) (i : Nat) : Bool :=
  match (d.getN i).kind with
  | .text => true
  | .comment => true
  | _ => false

/-- Node length as in the core helper: character count for character data,
child count otherwise. -/
def Dom.getNodeLength (d : Dom) (i : Nat) : Nat :=
  if d.isCharacterDataNode i then (d.getN i).data.length else (d.children i).length

def Dom.childAt (d : Dom) (i : Nat) (k : Nat) : Option Nat := (d.children i).get? k

def Dom.lastChildOf (d : Dom) (i : Nat) : Option Nat := (d.children i).getLast?

/-- Previous sibling of a node, if any. -/
def Dom.prevSibling (d : Dom) (i : Nat) : Option Nat :=
  match d.parentOf i with
  | none => none
  | some p => if d.getNodeIndex i = 0 then none else d.childAt p (d.getNodeIndex i - 1)

/-- Next sibling of a node, if any. -/
def Dom.nextSibling (d : Dom) (i : Nat) : Option Nat :=
  match d.parentOf i with
  | none => none
  | some p => d.childAt p (d.getNodeIndex i + 1)

/-- Climb to the furthest ancestor (getRootContainer in the core),
with fuel bounding the climb. -/
def rootAux (d : Dom) : Nat → Nat → Nat
  | 0, i => i
  | fuel + 1, i =>
    match d.parentOf i with
    | none => i
    | some p => rootAux d fuel p

def Dom.getRootContainer (d : Dom) (i : Nat) : Nat := rootAux d d.size i

/-- Child-index path from the furthest ancestor down to a node. -/
def indexPathAux (d : Dom) : Nat → Nat → List Nat
  | 0, _ => []
  | fuel + 1, i =>
    match d.parentOf i with
    | none => []
    | some p => indexPathAux d fuel p ++ [d.getNodeIndex i]

def Dom.indexPath (d : Dom) (i : Nat) : List Nat := indexPathAux d d.size i

/-- Lexicographic comparison of index paths, as integers -1, 0, 1. -/
def lexCompare : List Nat → List Nat → Int
  | [], [] => 0
  | [], _ :: _ => -1
  | _ :: _, [] => 1
  | a :: as, b :: bs => if a < b then -1 else if b < a then 1 else lexCompare as bs

/-- Modelled from the spec: comparePoints returns before/equal/after in tree
order (section 4.1).  A boundary point is encoded as the index path of its
node followed by its offset; tree order is lexicographic on this encoding. -/
def Dom.comparePoints (d : Dom) (n1 o1 n2 o2 : Nat) : Int :=
  lexCompare (d.indexPath n1 ++ [o1]) (d.indexPath n2 ++ [o2])

/-- A range: ordered pair of boundary points held as node handles. -/
structure Range where
  sn : Nat
  so : Nat
  en : Nat
  eo : Nat
deriving DecidableEq, Repr

/-- The containment predicate of rangy-commands (isContained): the node's
furthest ancestor equals the range root, (node, 0) is after the start and
(node, length) is before the end. -/
def isContained (d : Dom) (n : Nat) (r : Range) : Bool :=
  let pos1 := d.comparePoints n 0 r.sn r.so
  let pos2 := d.comparePoints n (d.getNodeLength n) r.en r.eo
  d.getRootContainer n = d.getRootContainer r.sn && pos1 = 1 && pos2 = -1

/-- The effective containment predicate of rangy-commands, transcribed from
isEffectivelyContained: contained, or the start container when it is
character data whose length differs from the start offset, or the end
container when it is character data and the end offset is non-zero, or a
node with children all of which are effectively contained. -/
def isEffectivelyContained (d : Dom) : Nat → Nat → Range → Bool
  | 0, _, _ => false
  | fuel + 1, n, r =>
    if isContained d n r then true
    else if n = r.sn && d.isCharacterDataNode n && d.getNodeLength n ≠ r.so then true
    else if n = r.en && d.isCharacterDataNode n && r.eo ≠ 0 then true
    else if (d.children n).length ≠ 0 then
      (d.children n).all (fun c => isEffectivelyContained d fuel c r)
    else false

/-- The claim's (and the code comment's) normative recursive definition,
which restricts the two boundary cases to Text nodes rather than to all
character data. -/
def textEffectivelyContained (d : Dom) : Nat → Nat → Range → Bool
  | 0, _, _ => false
  | fuel + 1, n, r =>
    if isContained d n r then true
    else if n = r.sn && (d.getN n).kind = .text && d.getNodeLength n ≠ r.so then true
    else if n = r.en && (d.getN n).kind = .text && r.eo ≠ 0 then true
    else if (d.children n).length ≠ 0 then
      (d.children n).all (fun c => textEffectivelyContained d fuel c r)
    else false

/-! ## Inline classification and blockExtend -/

def inlineDisplays : List String := ["inline", "inline-block", "inline-table"]

def brTag : String := "br"

/-- Modelled from the spec: computed style lookup is host-provided (section
6); the stored display value of an element stands for its computed display.
isInlineNode: character data, or an element whose display computes to
inline, inline-block or inline-table. -/
def isInlineNode (d : Dom) (i : Nat) : Bool :=
  d.isCharacterDataNode i ||
    (decide ((d.getN i).kind = .element) && inlineDisplays.contains (d.getN i).display)

/-- isNonBrInlineNode from rangy-commands. -/
def isNonBrInlineNode (d : Dom) (i : Nat) : Bool :=
  isInlineNode d i && decide ((d.getN i).tag ≠ brTag)

/-- Result of one of the blockExtend boundary loops: a break state, a
dereference of the null parent of the root, or fuel exhaustion. -/
inductive LoopRes where
  | broke (n off : Nat)
  | deref
  | out
deriving DecidableEq, Repr

/-- The start-boundary loop of blockExtend, transcribed step for step: climb
at character data or offset 0 (recording the node index first), climb past
the node when the offset equals its length, absorb a non-br inline child
whose previous sibling is also non-br inline by decrementing the offset,
otherwise break.  When the current node has no parent the original sets the
node to null and the next iteration dereferences it. -/
def startLoopF (d : Dom) : Nat → Nat → Nat → LoopRes
  | 0, _, _ => .out
  | fuel + 1, n, off =>
    if d.isCharacterDataNode n || decide (off = 0) then
      match d.parentOf n with
      | none => .deref
      | some p => startLoopF d fuel p (d.getNodeIndex n)
    else if off = d.getNodeLength n then
      match d.parentOf n with
      | none => .deref
      | some p => startLoopF d fuel p (d.getNodeIndex n + 1)
    else
      match d.childAt n off with
      | some c =>
        if isNonBrInlineNode d c && (d.childAt n (off - 1)).any (isNonBrInlineNode d) then
          startLoopF d fuel n (off - 1)
        else .broke n off
      | none => .broke n off

/-- The end-boundary loop of blockExtend: climb at offset 0, climb past the
node at character data or offset = length, absorb forward (the transcribed
code tests the child and its previous sibling) by incrementing the offset,
otherwise break. -/
def endLoopF (d : Dom) : Nat → Nat → Nat → LoopRes
  | 0, _, _ => .out
  | fuel + 1, n, off =>
    if off = 0 then
      match d.parentOf n with
      | none => .deref
      | some p => endLoopF d fuel p (d.getNodeIndex n)
    else if d.isCharacterDataNode n || decide (off = d.getNodeLength n) then
      match d.parentOf n with
      | none => .deref
      | some p => endLoopF d fuel p (d.getNodeIndex n + 1)
    else
      match d.childAt n off with
      | some c =>
        if isNonBrInlineNode d c && (d.childAt n (off - 1)).any (isNonBrInlineNode d) then
          endLoopF d fuel n (off + 1)
        else .broke n off
      | none => .broke n off

/-- blockExtend: run both boundary loops and return the new range, or none
when a loop fails on the null parent of the root (or fuel runs out, which
the termination theorem below excludes for well-formed arenas). -/
def blockExtend (d : Dom) (fuel : Nat) (r : Range) : Option Range :=
  match startLoopF d fuel r.sn r.so, endLoopF d fuel r.en r.eo with
  | .broke sn so, .broke en eo => some ⟨sn, so, en, eo⟩
  | _, _ => none

/-- Acyclicity witness for the arena: a depth function that increases by
one from parent to child. -/
abbrev Acyc (d : Dom) (dep : Nat → Nat) : Prop :=
  ∀ p, p < d.size → ∀ c ∈ d.children p, dep c = dep p + 1

/-- Child lists of a well-formed arena are no longer than the arena. -/
abbrev ChildLenLe (d : Dom) : Prop :=
  ∀ p, p < d.size → (d.children p).length ≤ d.size

theorem findParentAux_some (c : Nat) : ∀ (l : List NData) (i p : Nat),
    findParentAux c l i = some p →
    ∃ j, j < l.length ∧ p = i + j ∧ c ∈ (l.getD j defaultN).children := by
  intro l
  induction l with
  | nil => intro i p h; simp [findParentAux] at h
  | cons nd rest ih =>
    intro i p h
    rw [findParentAux] at h
    cases hc : nd.children.contains c with
    | true =>
      rw [hc] at h
      simp at h
      refine ⟨0, by simp, by omega, ?_⟩
      simpa using List.mem_of_elem_eq_true hc
    | false =>
      rw [hc] at h
      simp at h
      obtain ⟨j, hj, hp, hcont⟩ := ih (i + 1) p h
      exact ⟨j + 1, by simpa using hj, by omega, by simpa using hcont⟩

theorem Dom.parentOf_spec (d : Dom) (n p : Nat) (h : d.parentOf n = some p) :
    p < d.size ∧ n ∈ d.children p := by
  obtain ⟨j, hj, hp, hcont⟩ := findParentAux_some n d.nodes 0 p h
  refine ⟨by simpa [Dom.size, hp] using hj, ?_⟩
  have : p = j := by omega
  subst this
  simpa [Dom.children, Dom.getN] using hcont

theorem getNodeIndex_lt (d : Dom) {n p : Nat} (h : d.parentOf n = some p) :
    d.getNodeIndex n < (d.children p).length := by
  have hmem := (d.parentOf_spec n p h).2
  unfold Dom.getNodeIndex
  rw [h]
  exact List.findIdx_lt_length_of_exists ⟨n, hmem, by simp⟩

theorem children_of_ge (d : Dom) (n : Nat) (h : d.size ≤ n) : d.children n = [] := by
  have hn : d.nodes[n]? = none := List.getElem?_eq_none h
  simp [Dom.children, Dom.getN, List.getD, hn, defaultN]

theorem childAt_lt_size (d : Dom) {n k c : Nat} (h : d.childAt n k = some c) :
    n < d.size ∧ k < (d.children n).length := by
  have hk : k < (d.children n).length := by
    have := List.get?_eq_some.mp h
    exact this.1
  refine ⟨?_, hk⟩
  by_contra hn
  rw [children_of_ge d n (by omega)] at hk
  simp at hk

/-- Termination of the start-boundary loop: with fuel above the
depth-and-offset measure, the loop never runs out of fuel (it breaks or
fails on the root's null parent). -/
theorem startLoopF_no_out (d : Dom) (dep : Nat → Nat) (hdep : Acyc d dep)
    (hlen : ChildLenLe d) :
    ∀ fuel n off,
      dep n * (d.size + 3) + min off (d.size + 1) < fuel →
      startLoopF d fuel n off ≠ LoopRes.out := by
  intro fuel
  induction fuel with
  | zero => intro n off h; omega
  | succ f ih =>
    intro n off h
    rw [startLoopF]
    split
    · cases hp : d.parentOf n with
      | none => simp
      | some p =>
        have hmem := d.parentOf_spec n p hp
        have hdn : dep n = dep p + 1 := hdep p hmem.1 n hmem.2
        have hidx : d.getNodeIndex n < (d.children p).length := getNodeIndex_lt d hp
        have hlenp := hlen p hmem.1
        apply ih
        have hmul : dep n * (d.size + 3) = dep p * (d.size + 3) + (d.size + 3) := by
          rw [hdn]; ring
        omega
    · split
      · cases hp : d.parentOf n with
        | none => simp
        | some p =>
          have hmem := d.parentOf_spec n p hp
          have hdn : dep n = dep p + 1 := hdep p hmem.1 n hmem.2
          have hidx : d.getNodeIndex n < (d.children p).length := getNodeIndex_lt d hp
          have hlenp := hlen p hmem.1
          apply ih
          have hmul : dep n * (d.size + 3) = dep p * (d.size + 3) + (d.size + 3) := by
            rw [hdn]; ring
          omega
      · rename_i h1 h2
        split
        · rename_i c hc
          split
          · have hb := childAt_lt_size d hc
            have hlenn := hlen n hb.1
            have hoff0 : off ≠ 0 := by
              intro h'
              exact h1 (by simp [h'])
            apply ih
            omega
          · simp
        · simp

/-- Termination of the end-boundary loop. -/
theorem endLoopF_no_out (d : Dom) (dep : Nat → Nat) (hdep : Acyc d dep)
    (hlen : ChildLenLe d) :
    ∀ fuel n off,
      dep n * (d.size + 3) + (d.size + 3 - min off (d.size + 3)) < fuel →
      endLoopF d fuel n off ≠ LoopRes.out := by
  intro fuel
  induction fuel with
  | zero => intro n off h; omega
  | succ f ih =>
    intro n off h
    rw [endLoopF]
    split
    · cases hp : d.parentOf n with
      | none => simp
      | some p =>
        have hmem := d.parentOf_spec n p hp
        have hdn : dep n = dep p + 1 := hdep p hmem.1 n hmem.2
        have hidx : d.getNodeIndex n < (d.children p).length := getNodeIndex_lt d hp
        have hlenp := hlen p hmem.1
        apply ih
        have hmul : dep n * (d.size + 3) = dep p * (d.size + 3) + (d.size + 3) := by
          rw [hdn]; ring
        omega
    · split
      · cases hp : d.parentOf n with
        | none => simp
        | some p =>
          have hmem := d.parentOf_spec n p hp
          have hdn : dep n = dep p + 1 := hdep p hmem.1 n hmem.2
          have hidx : d.getNodeIndex n < (d.children p).length := getNodeIndex_lt d hp
          have hlenp := hlen p hmem.1
          apply ih
          have hmul : dep n * (d.size + 3) = dep p * (d.size + 3) + (d.size + 3) := by
            rw [hdn]; ring
          omega
      · rename_i h1 h2
        split
        · rename_i c hc
          split
          · have hb := childAt_lt_size d hc
            have hlenn := hlen n hb.1
            have hoff0 : off ≠ 0 := h1
            apply ih
            omega
          · simp
        · simp

/-- Any break state the start loop reaches is itself an immediate break
state: re-entering the loop there stops at once. -/
theorem startLoopF_broke_state (d : Dom) :
    ∀ fuel n off n' off', startLoopF d fuel n off = .broke n' off' →
      ∀ f, startLoopF d (f + 1) n' off' = .broke n' off' := by
  intro fuel
  induction fuel with
  | zero => intro n off n' off' h; simp [startLoopF] at h
  | succ fl ih =>
    intro n off n' off' h
    rw [startLoopF] at h
    split at h
    · split at h
      · exact absurd h (by simp)
      · exact ih _ _ _ _ h
    · split at h
      · split at h
        · exact absurd h (by simp)
        · exact ih _ _ _ _ h
      · rename_i h1 h2
        split at h
        · rename_i c hc
          split at h
          · exact ih _ _ _ _ h
          · rename_i hcond
            injection h with e1 e2
            subst e1; subst e2
            intro f
            rw [startLoopF]
            rw [if_neg h1, if_neg h2, hc]
            exact if_neg hcond
        · rename_i hc
          injection h with e1 e2
          subst e1; subst e2
          intro f
          rw [startLoopF]
          rw [if_neg h1, if_neg h2, hc]

/-- Same characterisation for the end loop. -/
theorem endLoopF_broke_state (d : Dom) :
    ∀ fuel n off n' off', endLoopF d fuel n off = .broke n' off' →
      ∀ f, endLoopF d (f + 1) n' off' = .broke n' off' := by
  intro fuel
  induction fuel with
  | zero => intro n off n' off' h; simp [endLoopF] at h
  | succ fl ih =>
    intro n off n' off' h
    rw [endLoopF] at h
    split at h
    · split at h
      · exact absurd h (by simp)
      · exact ih _ _ _ _ h
    · split at h
      · split at h
        · exact absurd h (by simp)
        · exact ih _ _ _ _ h
      · rename_i h1 h2
        split at h
        · rename_i c hc
          split at h
          · exact ih _ _ _ _ h
          · rename_i hcond
            injection h with e1 e2
            subst e1; subst e2
            intro f
            rw [endLoopF]
            rw [if_neg h1, if_neg h2, hc]
            exact if_neg hcond
        · rename_i hc
          injection h with e1 e2
          subst e1; subst e2
          intro f
          rw [endLoopF]
          rw [if_neg h1, if_neg h2, hc]

/-- blockExtend succeeds exactly when both loops break, and break states
re-break, so a successful blockExtend output is a fixed point. -/
theorem blockExtend_some_idem (d : Dom) (fuel : Nat) (r r' : Range)
    (h : blockExtend d fuel r = some r') : blockExtend d fuel r' = some r' := by
  unfold blockExtend at h ⊢
  cases hs : startLoopF d fuel r.sn r.so with
  | deref => rw [hs] at h; exact absurd h (by simp)
  | out => rw [hs] at h; exact absurd h (by simp)
  | broke sn so =>
    cases he : endLoopF d fuel r.en r.eo with
    | deref => rw [hs, he] at h; exact absurd h (by simp)
    | out => rw [hs, he] at h; exact absurd h (by simp)
    | broke en eo =>
      rw [hs, he] at h
      simp at h
      cases fuel with
      | zero => rw [startLoopF] at hs; exact absurd hs (by simp)
      | succ f =>
        have hs' := startLoopF_broke_state d _ _ _ _ _ hs f
        have he' := endLoopF_broke_state d _ _ _ _ _ he f
        rw [← h]
        simp [hs', he']

/-! ## Example arenas -/

/-- A root div holding a single text node. -/
def exDom4 : Dom :=
  ⟨[{ kind := .element, tag := "div", display := "block", children := [1] },
    { kind := .text, tag := "#text", data := "ab".toList }]⟩

/-- A root div holding a text node, an empty block child and another text
node; boundaries between the block child and the texts are break states of
both blockExtend loops. -/
def exDom5 : Dom :=
  ⟨[{ kind := .element, tag := "div", display := "block", children := [1, 2, 3] },
    { kind := .text, tag := "#text", data := "a".toList },
    { kind := .element, tag := "div", display := "block", children := [] },
    { kind := .text, tag := "#text", data := "b".toList }]⟩

/-- A root div whose only child is a comment node. -/
def exDom2 : Dom :=
  ⟨[{ kind := .element, tag := "div", display := "block", children := [1] },
    { kind := .comment, data := "abcde".toList }]⟩

/-- A root div with two span children, the first holding a text node. -/
def exDom6 : Dom :=
  ⟨[{ kind := .element, tag := "div", display := "block", children := [1, 2] },
    { kind := .element, tag := "span", display := "inline", children := [3] },
    { kind := .element, tag := "span", display := "inline", children := [] },
    { kind := .text, tag := "#text", data := "x".toList }]⟩

/-! ## movePreservingRanges -/

/-- Descendant-or-self test over the arena, with fuel. -/
def descSelf (d : Dom) : Nat → Nat → Nat → Bool
  | 0, a, b => decide (a = b)
  | fuel + 1, a, b => decide (a = b) || (d.children a).any (fun c => descSelf d fuel c b)

/-- Insert an element at an index of a list (append when the index is at or
past the end). -/
def insertAt : List Nat → Nat → Nat → List Nat
  | l, 0, x => x :: l
  | [], _ + 1, x => [x]
  | a :: l, k + 1, x => a :: insertAt l k x

/-- Modelled from the spec: host node insertion and removal (section 6);
section 4.3 specifies that movePreservingRanges relocates the node to
(newParent, newIndex).  The node is removed from its parent's child list
and inserted at the given index of the new parent's list. -/
def moveNode (d : Dom) (node newParent newIndex : Nat) : Dom :=
  let d1 :=
    match d.parentOf node with
    | none => d
    | some p => d.setChildren p ((d.children p).erase node)
  d1.setChildren newParent (insertAt (d1.children newParent) newIndex node)

/-- One boundary's rewrite inside movePreservingRanges: the three
conditionals of the original, applied cumulatively to a (node, offset)
pair, each condition tested against the original coordinates.  The
old-parent rebase adds newIndex - oldIndex to an offset that is at least
oldIndex there, so the sum-first form matches the original's integer
arithmetic. -/
def moveBoundary (oldParent oldIndex newParent newIndex bn bo : Nat) : Nat × Nat :=
  let bo1 := if bn = newParent ∧ bo > newIndex then bo + 1 else bo
  let p :=
    if bn = oldParent ∧ (bo = oldIndex ∨ bo = oldIndex + 1) then
      (newParent, bo1 + newIndex - oldIndex)
    else (bn, bo1)
  if bn = oldParent ∧ bo > oldIndex + 1 then (p.1, p.2 - 1) else p

/-- movePreservingRanges from rangy-commands, transcribed: record the old
parent and index, rewrite both boundary points of the supplied range by the
cumulative rules of the original (new-parent increment, then old-parent
rebase, then old-parent decrement), then relocate the node. -/
def movePreservingRanges (d : Dom) (r : Range) (node newParent newIndex : Nat) :
    Dom × Range :=
  let oldParent := (d.parentOf node).getD node
  let oldIndex := d.getNodeIndex node
  let s := moveBoundary oldParent oldIndex newParent newIndex r.sn r.so
  let e := moveBoundary oldParent oldIndex newParent newIndex r.en r.eo
  (moveNode d node newParent newIndex, ⟨s.1, s.2, e.1, e.2⟩)

/-- The boundary rewrite exactly as the claim states it, rule list applied
in the order given: a boundary on the moved node or a descendant of it is
unchanged; a boundary at the new parent past the new index is incremented;
a boundary at the old parent at the old index or old index + 1 is rebased
onto the new parent with the offset adjusted by newIndex - oldIndex; a
boundary at the old parent past old index + 1 is decremented. -/
def claimBoundaryRewrite (d : Dom) (node oldParent oldIndex newParent newIndex bn bo : Nat) :
    Nat × Nat :=
  if descSelf d d.size node bn then (bn, bo)
  else
    let bo1 := if bn = newParent ∧ bo > newIndex then bo + 1 else bo
    if bn = oldParent ∧ (bo = oldIndex ∨ bo = oldIndex + 1) then
      (newParent, bo1 + newIndex - oldIndex)
    else if bn = oldParent ∧ bo > oldIndex + 1 then (bn, bo1 - 1)
    else (bn, bo1)

theorem insertAt_get? : ∀ (l : List Nat) (k x : Nat), k ≤ l.length →
    (insertAt l k x).get? k = some x := by
  intro l
  induction l with
  | nil =>
    intro k x hk
    have hk0 : k = 0 := by simpa using hk
    subst hk0
    rfl
  | cons a l ih =>
    intro k x hk
    cases k with
    | zero => rfl
    | succ k =>
      rw [insertAt]
      simpa using ih k x (by simpa using hk)

theorem Dom.size_setN (d : Dom) (i : Nat) (nd : NData) : (d.setN i nd).size = d.size := by
  simp [Dom.setN, Dom.size]

theorem Dom.getN_setN_self (d : Dom) (i : Nat) (nd : NData) (h : i < d.size) :
    (d.setN i nd).getN i = nd := by
  simp [Dom.setN, Dom.getN, List.getD, List.getElem?_set_self, Dom.size] at h ⊢
  rw [List.getElem?_set_self (by simpa [Dom.size] using h)]
  rfl

theorem Dom.getN_setN_ne (d : Dom) (i j : Nat) (nd : NData) (h : j ≠ i) :
    (d.setN i nd).getN j = d.getN j := by
  simp [Dom.setN, Dom.getN, List.getD]
  rw [List.getElem?_set_ne (by omega)]

/-- Depth can only grow along descendant chains. -/
theorem descSelf_dep_le (d : Dom) (dep : Nat → Nat) (hdep : Acyc d dep) :
    ∀ fuel a b, descSelf d fuel a b = true → dep a ≤ dep b := by
  intro fuel
  induction fuel with
  | zero =>
    intro a b h
    simp [descSelf] at h
    subst h
    exact le_refl _
  | succ f ih =>
    intro a b h
    simp [descSelf] at h
    rcases h with h | ⟨c, hc, hd⟩
    · subst h
      exact le_refl _
    · by_cases ha : a < d.size
      · have := hdep a ha c hc
        have := ih c b hd
        omega
      · rw [children_of_ge d a (by omega)] at hc
        simp at hc

theorem Dom.size_setChildren (d : Dom) (i : Nat) (cs : List Nat) :
    (d.setChildren i cs).size = d.size := by
  simp [Dom.setChildren, Dom.size_setN]

theorem Dom.children_setChildren_self (d : Dom) (i : Nat) (cs : List Nat) (h : i < d.size) :
    (d.setChildren i cs).children i = cs := by
  simp [Dom.setChildren, Dom.children, Dom.getN_setN_self d i _ h]

theorem Dom.children_setChildren_ne (d : Dom) (i j : Nat) (cs : List Nat) (h : j ≠ i) :
    (d.setChildren i cs).children j = d.children j := by
  simp [Dom.setChildren, Dom.children, Dom.getN_setN_ne d i j _ h]

/-- The cumulative boundary rewrite of the transcribed code agrees with the
claim's rule list whenever a boundary inside the moved subtree sits at
neither the old nor the new parent. -/
theorem moveBoundary_eq_claim (d : Dom) (node oldParent oldIndex newParent newIndex bn bo : Nat)
    (hb : descSelf d d.size node bn = true → bn ≠ newParent ∧ bn ≠ oldParent) :
    moveBoundary oldParent oldIndex newParent newIndex bn bo =
      claimBoundaryRewrite d node oldParent oldIndex newParent newIndex bn bo := by
  unfold moveBoundary claimBoundaryRewrite
  by_cases hdesc : descSelf d d.size node bn = true
  · obtain ⟨h1, h2⟩ := hb hdesc
    simp [hdesc, h1, h2]
  · rw [if_neg hdesc]
    by_cases heq : bn = oldParent
    · subst heq
      by_cases h3 : bo = oldIndex ∨ bo = oldIndex + 1
      · have h4 : ¬bo > oldIndex + 1 := by rcases h3 with h | h <;> omega
        simp [h3, h4]
      · by_cases h4 : bo > oldIndex + 1
        · simp [h3, h4]
        · simp [h3, h4]
    · simp [heq]

/-- C6: movePreservingRanges relocates the node to (newParent, newIndex)
and rewrites each boundary point of the range exactly by the claim's rule
list: subtree boundaries unchanged, new-parent offsets past newIndex
incremented, old-parent offsets at oldIndex or oldIndex + 1 rebased onto
the new parent, old-parent offsets past oldIndex + 1 decremented. -/
theorem c6_movePreservingRanges (d : Dom) (r : Range) (node newParent newIndex oldParent : Nat)
    (dep : Nat → Nat) (hdep : Acyc d dep)
    (hpar : d.parentOf node = some oldParent)
    (hnp : descSelf d d.size node newParent = false)
    (hni : (if oldParent = newParent then newIndex + 1 else newIndex) ≤
      (d.children newParent).length)
    (hnpsize : newParent < d.size) :
    (movePreservingRanges d r node newParent newIndex).2 =
      ⟨(claimBoundaryRewrite d node oldParent (d.getNodeIndex node) newParent newIndex r.sn r.so).1,
       (claimBoundaryRewrite d node oldParent (d.getNodeIndex node) newParent newIndex r.sn r.so).2,
       (claimBoundaryRewrite d node oldParent (d.getNodeIndex node) newParent newIndex r.en r.eo).1,
       (claimBoundaryRewrite d node oldParent (d.getNodeIndex node) newParent newIndex r.en r.eo).2⟩ ∧
    ((movePreservingRanges d r node newParent newIndex).1.children newParent).get? newIndex =
      some node := by
  have hps := d.parentOf_spec node oldParent hpar
  have hb : ∀ bn, descSelf d d.size node bn = true → bn ≠ newParent ∧ bn ≠ oldParent := by
    intro bn hdesc
    constructor
    · intro he
      subst he
      rw [hdesc] at hnp
      exact absurd hnp (by simp)
    · intro he
      subst he
      have hle := descSelf_dep_le d dep hdep d.size node bn hdesc
      have := hdep bn hps.1 node hps.2
      omega
  constructor
  · have hs := moveBoundary_eq_claim d node oldParent (d.getNodeIndex node) newParent newIndex
      r.sn r.so (hb r.sn)
    have he2 := moveBoundary_eq_claim d node oldParent (d.getNodeIndex node) newParent newIndex
      r.en r.eo (hb r.en)
    simp only [movePreservingRanges, hpar, Option.getD_some]
    rw [hs, he2]
  · show ((moveNode d node newParent newIndex).children newParent).get? newIndex = some node
    simp only [moveNode, hpar]
    by_cases hop : oldParent = newParent
    · subst hop
      rw [Dom.children_setChildren_self _ _ _
        (by rw [Dom.size_setChildren]; exact hnpsize)]
      rw [Dom.children_setChildren_self _ _ _ hps.1]
      apply insertAt_get?
      have hmem : node ∈ d.children oldParent := hps.2
      rw [List.length_erase_of_mem hmem]
      rw [if_pos rfl] at hni
      omega
    · rw [Dom.children_setChildren_self _ _ _
        (by rw [Dom.size_setChildren]; exact hnpsize)]
      rw [Dom.children_setChildren_ne _ _ _ _ (fun h => hop h.symm)]
      apply insertAt_get?
      rw [if_neg hop] at hni
      exact hni

theorem c6_witness :
    (movePreservingRanges exDom6 ⟨3, 0, 3, 1⟩ 3 2 0).2 =
      ⟨(claimBoundaryRewrite exDom6 3 1 (exDom6.getNodeIndex 3) 2 0 3 0).1,
       (claimBoundaryRewrite exDom6 3 1 (exDom6.getNodeIndex 3) 2 0 3 0).2,
       (claimBoundaryRewrite exDom6 3 1 (exDom6.getNodeIndex 3) 2 0 3 1).1,
       (claimBoundaryRewrite exDom6 3 1 (exDom6.getNodeIndex 3) 2 0 3 1).2⟩ ∧
    ((movePreservingRanges exDom6 ⟨3, 0, 3, 1⟩ 3 2 0).1.children 2).get? 0 = some 3 :=
  c6_movePreservingRanges exDom6 ⟨3, 0, 3, 1⟩ 3 2 0 1
    (fun i => if i = 0 then 0 else if i = 3 then 2 else 1)
    (by decide) (by decide) (by decide) (by decide) (by decide)

/-! ## splitNodeAt and flattened text -/

def idAttr : String := "id"

/-- Attribute handling of the clone step of splitNodeAt: cloneNode copies
every attribute; the original then removes the clone's id only when the id
property is truthy, that is, a non-empty string.  An empty specified id is
therefore kept on the clone. -/
def cloneAttrs (attrs : List (String × String)) : List (String × String) :=
  if ((attrs.lookup idAttr).getD "") ≠ "" then attrs.eraseP (fun a => a.1 == idAttr)
  else attrs

/-- Insert x directly after the first occurrence of t (append when t is
absent, matching insertBefore with a null reference). -/
def insertAfterIn : List Nat → Nat → Nat → List Nat
  | [], x, _ => [x]
  | a :: l, x, t => if a = t then a :: x :: l else a :: insertAfterIn l x t

/-- The clone block of splitNodeAt: shallow-clone dn (attributes per
cloneAttrs), move the children from doff on into the clone, insert the
clone as dn's next sibling under p (dn's parent, whose pointer the host
keeps across the preceding operations).  Returns the new arena and the
clone's id. -/
def cloneSplitStep (d : Dom) (dn doff p : Nat) : Dom × Nat :=
  let nd := d.getN dn
  let pr := d.push { nd with attrs := cloneAttrs nd.attrs, children := nd.children.drop doff }
  let d2 := pr.1.setChildren dn (nd.children.take doff)
  (d2.setChildren p (insertAfterIn (d2.children p) pr.2 dn), pr.2)

/-- Modelled from the spec plus DOM splitText semantics: divide character
data at an offset, the second half becoming a fresh node inserted as the
next sibling under p (the node's parent). -/
def splitDataStep (d : Dom) (t k p : Nat) : Dom × Nat :=
  let nd := d.getN t
  let pr := d.push { nd with data := nd.data.drop k, children := [] }
  let d2 := pr.1.setN t { nd with data := nd.data.take k }
  (d2.setChildren p (insertAfterIn (d2.children p) pr.2 t), pr.2)

/-- splitNodeAt of the class applier, transcribed with fuel: a character
data boundary at offset 0 or its length moves the split point to the
parent; a strictly interior character data boundary splits the data node;
otherwise the current node is shallow-cloned and the tail of its children
moved into the clone (the clone block is written out in each branch to
keep the recursion structural in the fuel).  The recursion climbs through
the clone's parent until the ancestor `node` itself has been cloned and
split, returning the arena, the clone of `node`, and the accumulated
(original, clone) pairs of the split path.  null dereferences of the
original (missing parents) yield none. -/
def splitNodeAt (d : Dom) : Nat → Nat → Nat → Nat → Option (Dom × Nat × List (Nat × Nat))
  | 0, _, _, _ => none
  | fuel + 1, node, dn, doff =>
    if d.isCharacterDataNode dn then
      if doff = 0 then
        match d.parentOf dn with
        | none => none
        | some t =>
          match d.parentOf t with
          | none => none
          | some pT =>
            let pr := cloneSplitStep d t (d.getNodeIndex dn) pT
            if t = node then some (pr.1, pr.2, [(t, pr.2)])
            else
              match pr.1.parentOf pr.2 with
              | none => none
              | some pp =>
                match splitNodeAt pr.1 fuel node pp (pr.1.getNodeIndex pr.2) with
                | none => none
                | some (dd, res, prs) => some (dd, res, (t, pr.2) :: prs)
      else if doff = d.getNodeLength dn then
        match d.parentOf dn with
        | none => none
        | some t =>
          match d.parentOf t with
          | none => none
          | some pT =>
            let pr := cloneSplitStep d t (d.getNodeIndex dn + 1) pT
            if t = node then some (pr.1, pr.2, [(t, pr.2)])
            else
              match pr.1.parentOf pr.2 with
              | none => none
              | some pp =>
                match splitNodeAt pr.1 fuel node pp (pr.1.getNodeIndex pr.2) with
                | none => none
                | some (dd, res, prs) => some (dd, res, (t, pr.2) :: prs)
      else
        match d.parentOf dn with
        | none => none
        | some p =>
          let pr := splitDataStep d dn doff p
          if dn = node then some (pr.1, pr.2, [])
          else
            match pr.1.parentOf pr.2 with
            | none => none
            | some pp => splitNodeAt pr.1 fuel node pp (pr.1.getNodeIndex pr.2)
    else
      match d.parentOf dn with
      | none => none
      | some pT =>
        let pr := cloneSplitStep d dn doff pT
        if dn = node then some (pr.1, pr.2, [(dn, pr.2)])
        else
          match pr.1.parentOf pr.2 with
          | none => none
          | some pp =>
            match splitNodeAt pr.1 fuel node pp (pr.1.getNodeIndex pr.2) with
            | none => none
            | some (dd, res, prs) => some (dd, res, (dn, pr.2) :: prs)

/-- Flattened text below a node: document-order concatenation of the
character data of the text nodes of the subtree. -/
def flatTextAux (d : Dom) : Nat → Nat → List Char
  | 0, _ => []
  | fuel + 1, i =>
    match (d.getN i).kind with
    | .text => (d.getN i).data
    | .comment => []
    | _ => ((d.children i).map (flatTextAux d fuel)).flatten

/-- Well-formed arena: children ids in range, sibling lists duplicate-free,
a unique parent per node and a depth function witnessing acyclicity. -/
structure WF (d : Dom) (dep : Nat → Nat) : Prop where
  childLt : ∀ p, p < d.size → ∀ c ∈ d.children p, c < d.size
  nodupEach : ∀ p, p < d.size → (d.children p).Nodup
  uniqPar : ∀ p1, p1 < d.size → ∀ p2, p2 < d.size → ∀ c, c ∈ d.children p1 →
    c ∈ d.children p2 → p1 = p2
  acyc : Acyc d dep
  charLeaf : ∀ p, p < d.size → d.isCharacterDataNode p = true → d.children p = []

theorem Dom.size_push (d : Dom) (nd : NData) : (d.push nd).1.size = d.size + 1 := by
  simp [Dom.push, Dom.size]

theorem Dom.getN_push_lt (d : Dom) (nd : NData) (v : Nat) (h : v < d.size) :
    (d.push nd).1.getN v = d.getN v := by
  simp only [Dom.push, Dom.getN, List.getD]
  rw [List.get?_append h]  -- deprecated alias kept for clarity

theorem Dom.getN_push_self (d : Dom) (nd : NData) : (d.push nd).1.getN d.size = nd := by
  simp only [Dom.push, Dom.getN, List.getD, Dom.size]
  rw [List.get?_concat_length]
  rfl

theorem Dom.getN_setChildren_ne (d : Dom) (i j : Nat) (cs : List Nat) (h : j ≠ i) :
    (d.setChildren i cs).getN j = d.getN j :=
  Dom.getN_setN_ne d i j _ h

theorem Dom.getN_setChildren_self (d : Dom) (i : Nat) (cs : List Nat) (h : i < d.size) :
    (d.setChildren i cs).getN i = { d.getN i with children := cs } :=
  Dom.getN_setN_self d i _ h

theorem getN_pushset_ne (d : Dom) (c : NData) (i : Nat) (cs : List Nat) (v : Nat)
    (hv : v < d.size) (h : v ≠ i) : ((d.push c).1.setChildren i cs).getN v = d.getN v := by
  rw [Dom.getN_setChildren_ne _ _ _ _ h, Dom.getN_push_lt _ _ _ hv]

theorem getN_pushsetN_ne (d : Dom) (c nd2 : NData) (i v : Nat)
    (hv : v < d.size) (h : v ≠ i) : ((d.push c).1.setN i nd2).getN v = d.getN v := by
  rw [Dom.getN_setN_ne _ _ _ _ h, Dom.getN_push_lt _ _ _ hv]

theorem cloneSplitStep_snd (d : Dom) (dn doff p : Nat) :
    (cloneSplitStep d dn doff p).2 = d.size := rfl

theorem cloneSplitStep_size (d : Dom) (dn doff p : Nat) :
    (cloneSplitStep d dn doff p).1.size = d.size + 1 := by
  simp [cloneSplitStep, Dom.setChildren, Dom.size_setN, Dom.size_push]

theorem cloneSplitStep_getN_other (d : Dom) (dn doff p v : Nat) (hv : v < d.size)
    (h1 : v ≠ dn) (h2 : v ≠ p) :
    (cloneSplitStep d dn doff p).1.getN v = d.getN v := by
  show ((((d.push _).1.setChildren dn _).setChildren p _)).getN v = d.getN v
  rw [Dom.getN_setChildren_ne _ _ _ _ h2, Dom.getN_setChildren_ne _ _ _ _ h1,
    Dom.getN_push_lt _ _ _ hv]

theorem cloneSplitStep_getN_dn (d : Dom) (dn doff p : Nat) (hdn : dn < d.size) (hne : dn ≠ p) :
    (cloneSplitStep d dn doff p).1.getN dn =
      { d.getN dn with children := (d.children dn).take doff } := by
  show ((((d.push _).1.setChildren dn _).setChildren p _)).getN dn = _
  rw [Dom.getN_setChildren_ne _ _ _ _ hne,
    Dom.getN_setChildren_self _ _ _ (by rw [Dom.size_push]; omega),
    Dom.getN_push_lt _ _ _ hdn]
  rfl

theorem cloneSplitStep_getN_p (d : Dom) (dn doff p : Nat) (hp : p < d.size) (hne : p ≠ dn) :
    (cloneSplitStep d dn doff p).1.getN p =
      { d.getN p with children := insertAfterIn (d.children p) d.size dn } := by
  show ((((d.push _).1.setChildren dn _).setChildren p _)).getN p = _
  rw [Dom.getN_setChildren_self _ _ _
    (by rw [Dom.setChildren, Dom.size_setN, Dom.size_push]; omega)]
  simp only [Dom.children]
  rw [getN_pushset_ne _ _ _ _ _ hp hne]
  rfl

theorem cloneSplitStep_getN_cl (d : Dom) (dn doff p : Nat) (hdn : dn < d.size)
    (hp : p < d.size) :
    (cloneSplitStep d dn doff p).1.getN d.size =
      { d.getN dn with
        attrs := cloneAttrs (d.getN dn).attrs
        children := (d.children dn).drop doff } := by
  show ((((d.push _).1.setChildren dn _).setChildren p _)).getN d.size = _
  rw [Dom.getN_setChildren_ne _ _ _ _ (by omega), Dom.getN_setChildren_ne _ _ _ _ (by omega),
    Dom.getN_push_self]
  rfl

theorem splitDataStep_snd (d : Dom) (t k p : Nat) : (splitDataStep d t k p).2 = d.size := rfl

theorem splitDataStep_size (d : Dom) (t k p : Nat) :
    (splitDataStep d t k p).1.size = d.size + 1 := by
  simp [splitDataStep, Dom.setChildren, Dom.size_setN, Dom.size_push]

theorem splitDataStep_getN_other (d : Dom) (t k p v : Nat) (hv : v < d.size)
    (h1 : v ≠ t) (h2 : v ≠ p) :
    (splitDataStep d t k p).1.getN v = d.getN v := by
  show ((((d.push _).1.setN t _).setChildren p _)).getN v = d.getN v
  rw [Dom.getN_setChildren_ne _ _ _ _ h2, Dom.getN_setN_ne _ _ _ _ h1,
    Dom.getN_push_lt _ _ _ hv]

theorem splitDataStep_getN_t (d : Dom) (t k p : Nat) (ht : t < d.size) (hne : t ≠ p) :
    (splitDataStep d t k p).1.getN t = { d.getN t with data := (d.getN t).data.take k } := by
  show ((((d.push _).1.setN t _).setChildren p _)).getN t = _
  rw [Dom.getN_setChildren_ne _ _ _ _ hne,
    Dom.getN_setN_self _ _ _ (by rw [Dom.size_push]; omega)]

theorem splitDataStep_getN_p (d : Dom) (t k p : Nat) (hp : p < d.size) (hne : p ≠ t) :
    (splitDataStep d t k p).1.getN p =
      { d.getN p with children := insertAfterIn (d.children p) d.size t } := by
  show ((((d.push _).1.setN t _).setChildren p _)).getN p = _
  rw [Dom.getN_setChildren_self _ _ _
    (by simp only [Dom.setN, Dom.size, Dom.push, List.length_set, List.length_append]
        simp only [Dom.size] at hp
        omega)]
  simp only [Dom.children]
  rw [getN_pushsetN_ne _ _ _ _ _ hp hne]
  rfl

theorem splitDataStep_getN_new (d : Dom) (t k p : Nat) (ht : t < d.size) (hp : p < d.size) :
    (splitDataStep d t k p).1.getN d.size =
      { d.getN t with
        data := (d.getN t).data.drop k
        children := [] } := by
  show ((((d.push _).1.setN t _).setChildren p _)).getN d.size = _
  rw [Dom.getN_setChildren_ne _ _ _ _ (by omega), Dom.getN_setN_ne _ _ _ _ (by omega),
    Dom.getN_push_self]

/-- Decomposition of an insert-after on a duplicate-free list. -/
theorem insertAfterIn_decomp (t x : Nat) : ∀ (l : List Nat), t ∈ l → l.Nodup →
    ∃ pre suf, l = pre ++ t :: suf ∧ insertAfterIn l x t = pre ++ t :: x :: suf ∧
      t ∉ pre ∧ t ∉ suf := by
  intro l
  induction l with
  | nil => intro h; simp at h
  | cons a l ih =>
    intro hmem hnd
    by_cases ha : a = t
    · subst ha
      refine ⟨[], l, by simp, ?_, by simp, ?_⟩
      · rw [insertAfterIn, if_pos rfl]
        simp
      · exact (List.nodup_cons.mp hnd).1
    · have hm : t ∈ l := by
        rcases List.mem_cons.mp hmem with h | h
        · exact absurd h.symm ha
        · exact h
      obtain ⟨pre, suf, he, hi, hp1, hp2⟩ := ih hm (List.nodup_cons.mp hnd).2
      refine ⟨a :: pre, suf, by simp [he], ?_, ?_, hp2⟩
      · rw [insertAfterIn, if_neg ha, hi]
        simp
      · simp [hp1]
        intro h
        exact ha h.symm

section StepFields

variable (d : Dom) (dn doff p : Nat)

theorem cloneSplitStep_children_p (hp : p < d.size) (hne : p ≠ dn) :
    (cloneSplitStep d dn doff p).1.children p = insertAfterIn (d.children p) d.size dn := by
  rw [Dom.children, cloneSplitStep_getN_p d dn doff p hp hne]

theorem cloneSplitStep_children_dn (hdn : dn < d.size) (hne : dn ≠ p) :
    (cloneSplitStep d dn doff p).1.children dn = (d.children dn).take doff := by
  rw [Dom.children, cloneSplitStep_getN_dn d dn doff p hdn hne]

theorem cloneSplitStep_children_cl (hdn : dn < d.size) (hp : p < d.size) :
    (cloneSplitStep d dn doff p).1.children d.size = (d.children dn).drop doff := by
  rw [Dom.children, cloneSplitStep_getN_cl d dn doff p hdn hp]

theorem cloneSplitStep_children_other (v : Nat) (hv : v < d.size) (h1 : v ≠ dn) (h2 : v ≠ p) :
    (cloneSplitStep d dn doff p).1.children v = d.children v := by
  rw [Dom.children, cloneSplitStep_getN_other d dn doff p v hv h1 h2, Dom.children]

theorem cloneSplitStep_kind (v : Nat) (hv : v < d.size) (hdn : dn < d.size)
    (hp : p < d.size) (hne : p ≠ dn) :
    ((cloneSplitStep d dn doff p).1.getN v).kind = (d.getN v).kind := by
  by_cases h1 : v = dn
  · rw [h1, cloneSplitStep_getN_dn d dn doff p hdn (fun h => hne h.symm)]
  · by_cases h2 : v = p
    · rw [h2, cloneSplitStep_getN_p d dn doff p hp hne]
    · rw [cloneSplitStep_getN_other d dn doff p v hv h1 h2]

theorem cloneSplitStep_data (v : Nat) (hv : v < d.size) (hdn : dn < d.size)
    (hp : p < d.size) (hne : p ≠ dn) :
    ((cloneSplitStep d dn doff p).1.getN v).data = (d.getN v).data := by
  by_cases h1 : v = dn
  · rw [h1, cloneSplitStep_getN_dn d dn doff p hdn (fun h => hne h.symm)]
  · by_cases h2 : v = p
    · rw [h2, cloneSplitStep_getN_p d dn doff p hp hne]
    · rw [cloneSplitStep_getN_other d dn doff p v hv h1 h2]

theorem cloneSplitStep_attrs (v : Nat) (hv : v < d.size) (hdn : dn < d.size)
    (hp : p < d.size) (hne : p ≠ dn) :
    ((cloneSplitStep d dn doff p).1.getN v).attrs = (d.getN v).attrs := by
  by_cases h1 : v = dn
  · rw [h1, cloneSplitStep_getN_dn d dn doff p hdn (fun h => hne h.symm)]
  · by_cases h2 : v = p
    · rw [h2, cloneSplitStep_getN_p d dn doff p hp hne]
    · rw [cloneSplitStep_getN_other d dn doff p v hv h1 h2]

theorem cloneSplitStep_kind_cl (hdn : dn < d.size) (hp : p < d.size) :
    ((cloneSplitStep d dn doff p).1.getN d.size).kind = (d.getN dn).kind := by
  rw [cloneSplitStep_getN_cl d dn doff p hdn hp]

theorem cloneSplitStep_data_cl (hdn : dn < d.size) (hp : p < d.size) :
    ((cloneSplitStep d dn doff p).1.getN d.size).data = (d.getN dn).data := by
  rw [cloneSplitStep_getN_cl d dn doff p hdn hp]

theorem cloneSplitStep_attrs_cl (hdn : dn < d.size) (hp : p < d.size) :
    ((cloneSplitStep d dn doff p).1.getN d.size).attrs = cloneAttrs (d.getN dn).attrs := by
  rw [cloneSplitStep_getN_cl d dn doff p hdn hp]

end StepFields

section StepFieldsData

variable (d : Dom) (t k p : Nat)

theorem splitDataStep_children_p (hp : p < d.size) (hne : p ≠ t) :
    (splitDataStep d t k p).1.children p = insertAfterIn (d.children p) d.size t := by
  rw [Dom.children, splitDataStep_getN_p d t k p hp hne]

theorem splitDataStep_children_other (v : Nat) (hv : v < d.size) (h1 : v ≠ t) (h2 : v ≠ p) :
    (splitDataStep d t k p).1.children v = d.children v := by
  rw [Dom.children, splitDataStep_getN_other d t k p v hv h1 h2, Dom.children]

theorem splitDataStep_children_t (ht : t < d.size) (hne : t ≠ p) :
    (splitDataStep d t k p).1.children t = d.children t := by
  rw [Dom.children, splitDataStep_getN_t d t k p ht hne, Dom.children]

theorem splitDataStep_kind (v : Nat) (hv : v < d.size) (ht : t < d.size)
    (hp : p < d.size) (hne : p ≠ t) :
    ((splitDataStep d t k p).1.getN v).kind = (d.getN v).kind := by
  by_cases h1 : v = t
  · rw [h1, splitDataStep_getN_t d t k p ht (fun h => hne h.symm)]
  · by_cases h2 : v = p
    · rw [h2, splitDataStep_getN_p d t k p hp hne]
    · rw [splitDataStep_getN_other d t k p v hv h1 h2]

theorem splitDataStep_attrs (v : Nat) (hv : v < d.size) (ht : t < d.size)
    (hp : p < d.size) (hne : p ≠ t) :
    ((splitDataStep d t k p).1.getN v).attrs = (d.getN v).attrs := by
  by_cases h1 : v = t
  · rw [h1, splitDataStep_getN_t d t k p ht (fun h => hne h.symm)]
  · by_cases h2 : v = p
    · rw [h2, splitDataStep_getN_p d t k p hp hne]
    · rw [splitDataStep_getN_other d t k p v hv h1 h2]

theorem splitDataStep_data_other (v : Nat) (hv : v < d.size) (h1 : v ≠ t) (h2 : v ≠ p) :
    ((splitDataStep d t k p).1.getN v).data = (d.getN v).data := by
  rw [splitDataStep_getN_other d t k p v hv h1 h2]

theorem splitDataStep_data_p (hp : p < d.size) (hne : p ≠ t) :
    ((splitDataStep d t k p).1.getN p).data = (d.getN p).data := by
  rw [splitDataStep_getN_p d t k p hp hne]

theorem splitDataStep_kind_new (ht : t < d.size) (hp : p < d.size) :
    ((splitDataStep d t k p).1.getN d.size).kind = (d.getN t).kind := by
  rw [splitDataStep_getN_new d t k p ht hp]

end StepFieldsData

/-- The clone step preserves the flattened text below every node other
than the split one, and splits the split node's flattened text between it
and the clone. -/
theorem cloneSplitStep_flat (d : Dom) (dep : Nat → Nat) (hwf : WF d dep)
    (dn doff p : Nat) (hp : d.parentOf dn = some p)
    (hkind : d.isCharacterDataNode dn = false) :
    ∀ fuel,
      (∀ v, v < d.size → v ≠ dn →
        flatTextAux (cloneSplitStep d dn doff p).1 fuel v = flatTextAux d fuel v) ∧
      flatTextAux (cloneSplitStep d dn doff p).1 fuel dn ++
        flatTextAux (cloneSplitStep d dn doff p).1 fuel d.size =
        flatTextAux d fuel dn := by
  have hps := d.parentOf_spec dn p hp
  have hdn : dn < d.size := hwf.childLt p hps.1 dn hps.2
  have hdepx := hwf.acyc p hps.1 dn hps.2
  have hpne : p ≠ dn := by intro h; rw [h] at hdepx; omega
  intro fuel
  induction fuel with
  | zero => exact ⟨fun v _ _ => rfl, rfl⟩
  | succ f ih =>
    have hkd : ∀ v, v < d.size →
        ((cloneSplitStep d dn doff p).1.getN v).kind = (d.getN v).kind :=
      fun v hv => cloneSplitStep_kind d dn doff p v hv hdn hps.1 hpne
    constructor
    · intro v hv hvdn
      rw [flatTextAux, flatTextAux, hkd v hv]
      cases hk : (d.getN v).kind with
      | text => rw [cloneSplitStep_data d dn doff p v hv hdn hps.1 hpne]
      | comment => rfl
      | element =>
        by_cases hvp : v = p
        · rw [hvp]
          rw [cloneSplitStep_children_p d dn doff p hps.1 hpne]
          obtain ⟨pre, suf, hdec, hins, hnp1, hnp2⟩ :=
            insertAfterIn_decomp dn d.size (d.children p) hps.2 (hwf.nodupEach p hps.1)
          rw [hins, hdec]
          simp only [List.map_append, List.flatten_append, List.map_cons, List.flatten_cons]
          have hpre : ∀ x ∈ pre, flatTextAux (cloneSplitStep d dn doff p).1 f x =
              flatTextAux d f x := by
            intro x hx
            have hxm : x ∈ d.children p := by rw [hdec]; simp [hx]
            exact ih.1 x (hwf.childLt p hps.1 x hxm) (fun h => hnp1 (h ▸ hx))
          have hsuf : ∀ x ∈ suf, flatTextAux (cloneSplitStep d dn doff p).1 f x =
              flatTextAux d f x := by
            intro x hx
            have hxm : x ∈ d.children p := by rw [hdec]; simp [hx]
            exact ih.1 x (hwf.childLt p hps.1 x hxm) (fun h => hnp2 (h ▸ hx))
          rw [List.map_congr_left hpre, List.map_congr_left hsuf]
          rw [← ih.2]
          simp [List.append_assoc]
        · rw [cloneSplitStep_children_other d dn doff p v hv hvdn hvp]
          show (List.map (flatTextAux (cloneSplitStep d dn doff p).1 f) (d.children v)).flatten =
            (List.map (flatTextAux d f) (d.children v)).flatten
          apply congrArg
          apply List.map_congr_left
          intro x hx
          refine ih.1 x (hwf.childLt v hv x hx) ?_
          intro h
          exact hvp (hwf.uniqPar v hv p hps.1 x hx (by rw [h]; exact hps.2))
      | document =>
        by_cases hvp : v = p
        · rw [hvp]
          rw [cloneSplitStep_children_p d dn doff p hps.1 hpne]
          obtain ⟨pre, suf, hdec, hins, hnp1, hnp2⟩ :=
            insertAfterIn_decomp dn d.size (d.children p) hps.2 (hwf.nodupEach p hps.1)
          rw [hins, hdec]
          simp only [List.map_append, List.flatten_append, List.map_cons, List.flatten_cons]
          have hpre : ∀ x ∈ pre, flatTextAux (cloneSplitStep d dn doff p).1 f x =
              flatTextAux d f x := by
            intro x hx
            have hxm : x ∈ d.children p := by rw [hdec]; simp [hx]
            exact ih.1 x (hwf.childLt p hps.1 x hxm) (fun h => hnp1 (h ▸ hx))
          have hsuf : ∀ x ∈ suf, flatTextAux (cloneSplitStep d dn doff p).1 f x =
              flatTextAux d f x := by
            intro x hx
            have hxm : x ∈ d.children p := by rw [hdec]; simp [hx]
            exact ih.1 x (hwf.childLt p hps.1 x hxm) (fun h => hnp2 (h ▸ hx))
          rw [List.map_congr_left hpre, List.map_congr_left hsuf]
          rw [← ih.2]
          simp [List.append_assoc]
        · rw [cloneSplitStep_children_other d dn doff p v hv hvdn hvp]
          show (List.map (flatTextAux (cloneSplitStep d dn doff p).1 f) (d.children v)).flatten =
            (List.map (flatTextAux d f) (d.children v)).flatten
          apply congrArg
          apply List.map_congr_left
          intro x hx
          refine ih.1 x (hwf.childLt v hv x hx) ?_
          intro h
          exact hvp (hwf.uniqPar v hv p hps.1 x hx (by rw [h]; exact hps.2))
    · have hall : ∀ x ∈ d.children dn, flatTextAux (cloneSplitStep d dn doff p).1 f x =
          flatTextAux d f x := by
        intro x hx
        refine ih.1 x (hwf.childLt dn hdn x hx) ?_
        intro h
        exact hpne (hwf.uniqPar dn hdn p hps.1 x hx (by rw [h]; exact hps.2)).symm
      rw [flatTextAux, flatTextAux, flatTextAux, hkd dn hdn,
        cloneSplitStep_kind_cl d dn doff p hdn hps.1]
      cases hk : (d.getN dn).kind with
      | text => rw [Dom.isCharacterDataNode, hk] at hkind; simp at hkind
      | comment => rw [Dom.isCharacterDataNode, hk] at hkind; simp at hkind
      | element =>
        rw [cloneSplitStep_children_dn d dn doff p hdn (fun h => hpne h.symm),
          cloneSplitStep_children_cl d dn doff p hdn hps.1]
        rw [← List.flatten_append, ← List.map_append, List.take_append_drop,
          List.map_congr_left hall]
      | document =>
        rw [cloneSplitStep_children_dn d dn doff p hdn (fun h => hpne h.symm),
          cloneSplitStep_children_cl d dn doff p hdn hps.1]
        rw [← List.flatten_append, ← List.map_append, List.take_append_drop,
          List.map_congr_left hall]

/-- The data-split step preserves the flattened text below every node
other than the split character data node, whose text is divided between it
and the new node. -/
theorem splitDataStep_flat (d : Dom) (dep : Nat → Nat) (hwf : WF d dep)
    (t k p : Nat) (hp : d.parentOf t = some p)
    (hkind : d.isCharacterDataNode t = true) :
    ∀ fuel,
      (∀ v, v < d.size → v ≠ t →
        flatTextAux (splitDataStep d t k p).1 fuel v = flatTextAux d fuel v) ∧
      flatTextAux (splitDataStep d t k p).1 fuel t ++
        flatTextAux (splitDataStep d t k p).1 fuel d.size =
        flatTextAux d fuel t := by
  have hps := d.parentOf_spec t p hp
  have ht : t < d.size := hwf.childLt p hps.1 t hps.2
  have hdepx := hwf.acyc p hps.1 t hps.2
  have hpne : p ≠ t := by intro h; rw [h] at hdepx; omega
  intro fuel
  induction fuel with
  | zero => exact ⟨fun v _ _ => rfl, rfl⟩
  | succ f ih =>
    have hkd : ∀ v, v < d.size →
        ((splitDataStep d t k p).1.getN v).kind = (d.getN v).kind :=
      fun v hv => splitDataStep_kind d t k p v hv ht hps.1 hpne
    constructor
    · intro v hv hvt
      rw [flatTextAux, flatTextAux, hkd v hv]
      cases hk : (d.getN v).kind with
      | text =>
        by_cases hvp : v = p
        · rw [hvp, splitDataStep_data_p d t k p hps.1 hpne]
        · rw [splitDataStep_data_other d t k p v hv hvt hvp]
      | comment => rfl
      | element =>
        by_cases hvp : v = p
        · rw [hvp]
          rw [splitDataStep_children_p d t k p hps.1 hpne]
          obtain ⟨pre, suf, hdec, hins, hnp1, hnp2⟩ :=
            insertAfterIn_decomp t d.size (d.children p) hps.2 (hwf.nodupEach p hps.1)
          rw [hins, hdec]
          simp only [List.map_append, List.flatten_append, List.map_cons, List.flatten_cons]
          have hpre : ∀ x ∈ pre, flatTextAux (splitDataStep d t k p).1 f x =
              flatTextAux d f x := by
            intro x hx
            have hxm : x ∈ d.children p := by rw [hdec]; simp [hx]
            exact ih.1 x (hwf.childLt p hps.1 x hxm) (fun h => hnp1 (h ▸ hx))
          have hsuf : ∀ x ∈ suf, flatTextAux (splitDataStep d t k p).1 f x =
              flatTextAux d f x := by
            intro x hx
            have hxm : x ∈ d.children p := by rw [hdec]; simp [hx]
            exact ih.1 x (hwf.childLt p hps.1 x hxm) (fun h => hnp2 (h ▸ hx))
          rw [List.map_congr_left hpre, List.map_congr_left hsuf]
          rw [← ih.2]
          simp [List.append_assoc]
        · rw [splitDataStep_children_other d t k p v hv hvt hvp]
          show (List.map (flatTextAux (splitDataStep d t k p).1 f) (d.children v)).flatten =
            (List.map (flatTextAux d f) (d.children v)).flatten
          apply congrArg
          apply List.map_congr_left
          intro x hx
          refine ih.1 x (hwf.childLt v hv x hx) ?_
          intro h
          exact hvp (hwf.uniqPar v hv p hps.1 x hx (by rw [h]; exact hps.2))
      | document =>
        by_cases hvp : v = p
        · rw [hvp]
          rw [splitDataStep_children_p d t k p hps.1 hpne]
          obtain ⟨pre, suf, hdec, hins, hnp1, hnp2⟩ :=
            insertAfterIn_decomp t d.size (d.children p) hps.2 (hwf.nodupEach p hps.1)
          rw [hins, hdec]
          simp only [List.map_append, List.flatten_append, List.map_cons, List.flatten_cons]
          have hpre : ∀ x ∈ pre, flatTextAux (splitDataStep d t k p).1 f x =
              flatTextAux d f x := by
            intro x hx
            have hxm : x ∈ d.children p := by rw [hdec]; simp [hx]
            exact ih.1 x (hwf.childLt p hps.1 x hxm) (fun h => hnp1 (h ▸ hx))
          have hsuf : ∀ x ∈ suf, flatTextAux (splitDataStep d t k p).1 f x =
              flatTextAux d f x := by
            intro x hx
            have hxm : x ∈ d.children p := by rw [hdec]; simp [hx]
            exact ih.1 x (hwf.childLt p hps.1 x hxm) (fun h => hnp2 (h ▸ hx))
          rw [List.map_congr_left hpre, List.map_congr_left hsuf]
          rw [← ih.2]
          simp [List.append_assoc]
        · rw [splitDataStep_children_other d t k p v hv hvt hvp]
          show (List.map (flatTextAux (splitDataStep d t k p).1 f) (d.children v)).flatten =
            (List.map (flatTextAux d f) (d.children v)).flatten
          apply congrArg
          apply List.map_congr_left
          intro x hx
          refine ih.1 x (hwf.childLt v hv x hx) ?_
          intro h
          exact hvp (hwf.uniqPar v hv p hps.1 x hx (by rw [h]; exact hps.2))
    · rw [flatTextAux, flatTextAux, flatTextAux, hkd t ht,
        splitDataStep_kind_new d t k p ht hps.1]
      cases hk : (d.getN t).kind with
      | text =>
        rw [show ((splitDataStep d t k p).1.getN t).data = (d.getN t).data.take k from by
          rw [splitDataStep_getN_t d t k p ht (fun h => hpne h.symm)]]
        rw [show ((splitDataStep d t k p).1.getN d.size).data = (d.getN t).data.drop k from by
          rw [splitDataStep_getN_new d t k p ht hps.1]]
        exact List.take_append_drop k (d.getN t).data
      | comment => rfl
      | element => rw [Dom.isCharacterDataNode, hk] at hkind; simp at hkind
      | document => rw [Dom.isCharacterDataNode, hk] at hkind; simp at hkind

theorem insertAfterIn_mem {x t c : Nat} : ∀ {l : List Nat},
    (c ∈ insertAfterIn l x t ↔ c ∈ l ∨ c = x) := by
  intro l
  induction l with
  | nil => simp [insertAfterIn]
  | cons a l ih =>
    rw [insertAfterIn]
    by_cases ha : a = t
    · rw [if_pos ha]
      simp
      tauto
    · rw [if_neg ha]
      simp [ih]
      tauto

theorem insertAfterIn_nodup {x t : Nat} : ∀ {l : List Nat}, l.Nodup → x ∉ l →
    (insertAfterIn l x t).Nodup := by
  intro l
  induction l with
  | nil => intro _ _; simp [insertAfterIn]
  | cons a l ih =>
    intro hnd hx
    rw [insertAfterIn]
    rcases List.nodup_cons.mp hnd with ⟨ha, hl⟩
    by_cases hat : a = t
    · rw [if_pos hat]
      refine List.nodup_cons.mpr ⟨?_, List.nodup_cons.mpr ⟨fun h => hx (by simp [h]), hl⟩⟩
      simp
      refine ⟨fun h => hx (by simp [h]), ha⟩
    · rw [if_neg hat]
      refine List.nodup_cons.mpr ⟨?_, ih hl (fun h => hx (by simp [h]))⟩
      rw [insertAfterIn_mem]
      rintro (h | h)
      · exact ha h
      · exact hx (by simp [h])

theorem take_drop_disjoint {L : List Nat} (h : L.Nodup) (k c : Nat)
    (h1 : c ∈ L.take k) (h2 : c ∈ L.drop k) : False := by
  have := List.take_append_drop k L
  rw [← this] at h
  rcases List.nodup_append.mp h with ⟨_, _, hdisj⟩
  exact hdisj h1 h2

/-- The clone step keeps the arena well formed; the clone inherits the
depth of the node it was split from. -/
theorem isCharacterDataNode_congr (d1 d2 : Dom) (i j : Nat)
    (h : (d1.getN i).kind = (d2.getN j).kind) :
    d1.isCharacterDataNode i = d2.isCharacterDataNode j := by
  simp only [Dom.isCharacterDataNode, h]

theorem cloneSplitStep_wf (d : Dom) (dep : Nat → Nat) (hwf : WF d dep)
    (dn doff p : Nat) (hp : d.parentOf dn = some p) :
    WF (cloneSplitStep d dn doff p).1 (fun v => if v = d.size then dep dn else dep v) := by
  have hps := d.parentOf_spec dn p hp
  have hdn : dn < d.size := hwf.childLt p hps.1 dn hps.2
  have hdepx := hwf.acyc p hps.1 dn hps.2
  have hpne : p ≠ dn := by intro h; rw [h] at hdepx; omega
  have hsz := cloneSplitStep_size d dn doff p
  have hmem3 : ∀ q, q < d.size + 1 → ∀ c ∈ (cloneSplitStep d dn doff p).1.children q,
      (q = p ∧ c = d.size) ∨ (c < d.size ∧ c ∈ d.children (if q = d.size then dn else q)) := by
    intro q hq c hc
    by_cases hqd : q = d.size
    · rw [hqd, cloneSplitStep_children_cl d dn doff p hdn hps.1] at hc
      have hcm : c ∈ d.children dn := List.mem_of_mem_drop hc
      exact Or.inr ⟨hwf.childLt dn hdn c hcm, by rw [if_pos hqd]; exact hcm⟩
    · by_cases hqdn : q = dn
      · rw [hqdn, cloneSplitStep_children_dn d dn doff p hdn (fun h => hpne h.symm)] at hc
        have hcm : c ∈ d.children dn := List.mem_of_mem_take hc
        exact Or.inr ⟨hwf.childLt dn hdn c hcm, by rw [if_neg hqd, hqdn]; exact hcm⟩
      · by_cases hqp : q = p
        · rw [hqp, cloneSplitStep_children_p d dn doff p hps.1 hpne] at hc
          rcases insertAfterIn_mem.mp hc with h | h
          · exact Or.inr ⟨hwf.childLt p hps.1 c h, by rw [if_neg hqd, hqp]; exact h⟩
          · exact Or.inl ⟨hqp, h⟩
        · rw [cloneSplitStep_children_other d dn doff p q (by omega) hqdn hqp] at hc
          exact Or.inr ⟨hwf.childLt q (by omega) c hc, by rw [if_neg hqd]; exact hc⟩
  refine ⟨?_, ?_, ?_, ?_, ?_⟩
  · intro q hq c hc
    rw [hsz] at hq
    rcases hmem3 q hq c hc with ⟨_, h⟩ | ⟨h, _⟩
    · rw [hsz]; omega
    · rw [hsz]; omega
  · intro q hq
    rw [hsz] at hq
    by_cases hqd : q = d.size
    · rw [hqd, cloneSplitStep_children_cl d dn doff p hdn hps.1]
      exact (hwf.nodupEach dn hdn).sublist (List.drop_sublist doff _)
    · by_cases hqdn : q = dn
      · rw [hqdn, cloneSplitStep_children_dn d dn doff p hdn (fun h => hpne h.symm)]
        exact (hwf.nodupEach dn hdn).sublist (List.take_sublist doff _)
      · by_cases hqp : q = p
        · rw [hqp, cloneSplitStep_children_p d dn doff p hps.1 hpne]
          refine insertAfterIn_nodup (hwf.nodupEach p hps.1) ?_
          intro h
          have := hwf.childLt p hps.1 _ h
          omega
        · rw [cloneSplitStep_children_other d dn doff p q (by omega) hqdn hqp]
          exact hwf.nodupEach q (by omega)
  · intro q1 hq1 q2 hq2 c hc1 hc2
    rw [hsz] at hq1 hq2
    rcases hmem3 q1 hq1 c hc1 with ⟨he1, hc1'⟩ | ⟨hlt1, hm1⟩
    · rcases hmem3 q2 hq2 c hc2 with ⟨he2, _⟩ | ⟨hlt2, _⟩
      · rw [he1, he2]
      · omega
    · rcases hmem3 q2 hq2 c hc2 with ⟨_, hc2'⟩ | ⟨hlt2, hm2⟩
      · omega
      · have hlt1' : (if q1 = d.size then dn else q1) < d.size := by
          by_cases h : q1 = d.size
          · rw [if_pos h]; exact hdn
          · rw [if_neg h]; omega
        have hlt2' : (if q2 = d.size then dn else q2) < d.size := by
          by_cases h : q2 = d.size
          · rw [if_pos h]; exact hdn
          · rw [if_neg h]; omega
        have heq := hwf.uniqPar _ hlt1' _ hlt2' c hm1 hm2
        by_cases h1 : q1 = d.size
        · by_cases h2 : q2 = d.size
          · rw [h1, h2]
          · rw [if_pos h1] at heq
            rw [if_neg h2] at heq
            exfalso
            rw [h1, cloneSplitStep_children_cl d dn doff p hdn hps.1] at hc1
            rw [← heq] at hc2
            rw [cloneSplitStep_children_dn d dn doff p hdn (fun h => hpne h.symm)] at hc2
            exact take_drop_disjoint (hwf.nodupEach dn hdn) doff c hc2 hc1
        · by_cases h2 : q2 = d.size
          · rw [if_neg h1] at heq
            rw [if_pos h2] at heq
            exfalso
            rw [h2, cloneSplitStep_children_cl d dn doff p hdn hps.1] at hc2
            rw [heq] at hc1
            rw [cloneSplitStep_children_dn d dn doff p hdn (fun h => hpne h.symm)] at hc1
            exact take_drop_disjoint (hwf.nodupEach dn hdn) doff c hc1 hc2
          · rw [if_neg h1, if_neg h2] at heq
            exact heq
  · intro q hq c hc
    rw [hsz] at hq
    show (if c = d.size then dep dn else dep c) = (if q = d.size then dep dn else dep q) + 1
    by_cases hqd : q = d.size
    · rw [hqd, cloneSplitStep_children_cl d dn doff p hdn hps.1] at hc
      have hcm : c ∈ d.children dn := List.mem_of_mem_drop hc
      have hac := hwf.acyc dn hdn c hcm
      have hcs : c ≠ d.size := by have := hwf.childLt dn hdn c hcm; omega
      rw [if_neg hcs, if_pos hqd]
      omega
    · by_cases hqdn : q = dn
      · rw [hqdn, cloneSplitStep_children_dn d dn doff p hdn (fun h => hpne h.symm)] at hc
        have hcm : c ∈ d.children dn := List.mem_of_mem_take hc
        have hac := hwf.acyc dn hdn c hcm
        have hcs : c ≠ d.size := by have := hwf.childLt dn hdn c hcm; omega
        rw [if_neg hcs, if_neg hqd, hqdn]
        omega
      · by_cases hqp : q = p
        · rw [hqp, cloneSplitStep_children_p d dn doff p hps.1 hpne] at hc
          rcases insertAfterIn_mem.mp hc with h | h
          · have hac := hwf.acyc p hps.1 c h
            have hcs : c ≠ d.size := by have := hwf.childLt p hps.1 c h; omega
            rw [if_neg hcs, if_neg hqd, hqp]
            omega
          · rw [if_pos h, if_neg hqd, hqp]
            omega
        · rw [cloneSplitStep_children_other d dn doff p q (by omega) hqdn hqp] at hc
          have hac := hwf.acyc q (by omega) c hc
          have hcs : c ≠ d.size := by have := hwf.childLt q (by omega) c hc; omega
          rw [if_neg hcs, if_neg hqd]
          omega
  · intro q hq hcd3
    rw [hsz] at hq
    by_cases hqd : q = d.size
    · have hk3 := cloneSplitStep_kind_cl d dn doff p hdn hps.1
      rw [hqd, isCharacterDataNode_congr _ d d.size dn hk3] at hcd3
      have := hwf.charLeaf dn hdn hcd3
      rw [hqd, cloneSplitStep_children_cl d dn doff p hdn hps.1, this]
      simp
    · have hk3 := cloneSplitStep_kind d dn doff p q (by omega) hdn hps.1 hpne
      rw [isCharacterDataNode_congr _ d q q hk3] at hcd3
      by_cases hqdn : q = dn
      · have hch := hwf.charLeaf q (by omega) hcd3
        rw [hqdn] at hch ⊢
        rw [cloneSplitStep_children_dn d dn doff p hdn (fun h => hpne h.symm), hch]
        simp
      · by_cases hqp : q = p
        · exfalso
          rw [hqp] at hcd3
          have := hwf.charLeaf p hps.1 hcd3
          rw [this] at hps
          simp at hps
        · rw [cloneSplitStep_children_other d dn doff p q (by omega) hqdn hqp]
          exact hwf.charLeaf q (by omega) hcd3

theorem splitDataStep_children_new (d : Dom) (t k p : Nat) (ht : t < d.size)
    (hp : p < d.size) :
    (splitDataStep d t k p).1.children d.size = [] := by
  rw [Dom.children, splitDataStep_getN_new d t k p ht hp]

/-- The data-split step keeps the arena well formed; the new node inherits
the depth of the split node. -/
theorem splitDataStep_wf (d : Dom) (dep : Nat → Nat) (hwf : WF d dep)
    (t k p : Nat) (hp : d.parentOf t = some p) :
    WF (splitDataStep d t k p).1 (fun v => if v = d.size then dep t else dep v) := by
  have hps := d.parentOf_spec t p hp
  have ht : t < d.size := hwf.childLt p hps.1 t hps.2
  have hdepx := hwf.acyc p hps.1 t hps.2
  have hpne : p ≠ t := by intro h; rw [h] at hdepx; omega
  have hsz := splitDataStep_size d t k p
  have hmem3 : ∀ q, q < d.size + 1 → ∀ c ∈ (splitDataStep d t k p).1.children q,
      (q = p ∧ c = d.size) ∨ (c < d.size ∧ q < d.size ∧ c ∈ d.children q) := by
    intro q hq c hc
    by_cases hqd : q = d.size
    · rw [hqd, splitDataStep_children_new d t k p ht hps.1] at hc
      simp at hc
    · by_cases hqt : q = t
      · rw [hqt, splitDataStep_children_t d t k p ht (fun h => hpne h.symm)] at hc
        exact Or.inr ⟨hwf.childLt t ht c hc, by omega, by rw [hqt]; exact hc⟩
      · by_cases hqp : q = p
        · rw [hqp, splitDataStep_children_p d t k p hps.1 hpne] at hc
          rcases insertAfterIn_mem.mp hc with h | h
          · exact Or.inr ⟨hwf.childLt p hps.1 c h, by omega, by rw [hqp]; exact h⟩
          · exact Or.inl ⟨hqp, h⟩
        · rw [splitDataStep_children_other d t k p q (by omega) hqt hqp] at hc
          exact Or.inr ⟨hwf.childLt q (by omega) c hc, by omega, hc⟩
  refine ⟨?_, ?_, ?_, ?_, ?_⟩
  · intro q hq c hc
    rw [hsz] at hq ⊢
    rcases hmem3 q hq c hc with ⟨_, h⟩ | ⟨h, _, _⟩ <;> omega
  · intro q hq
    rw [hsz] at hq
    by_cases hqd : q = d.size
    · rw [hqd, splitDataStep_children_new d t k p ht hps.1]
      exact List.nodup_nil
    · by_cases hqt : q = t
      · rw [hqt, splitDataStep_children_t d t k p ht (fun h => hpne h.symm)]
        exact hwf.nodupEach t ht
      · by_cases hqp : q = p
        · rw [hqp, splitDataStep_children_p d t k p hps.1 hpne]
          refine insertAfterIn_nodup (hwf.nodupEach p hps.1) ?_
          intro h
          have := hwf.childLt p hps.1 _ h
          omega
        · rw [splitDataStep_children_other d t k p q (by omega) hqt hqp]
          exact hwf.nodupEach q (by omega)
  · intro q1 hq1 q2 hq2 c hc1 hc2
    rw [hsz] at hq1 hq2
    rcases hmem3 q1 hq1 c hc1 with ⟨he1, hce1⟩ | ⟨hlt1, hq1', hm1⟩
    · rcases hmem3 q2 hq2 c hc2 with ⟨he2, _⟩ | ⟨hlt2, _, _⟩
      · rw [he1, he2]
      · omega
    · rcases hmem3 q2 hq2 c hc2 with ⟨_, hce2⟩ | ⟨hlt2, hq2', hm2⟩
      · omega
      · exact hwf.uniqPar q1 hq1' q2 hq2' c hm1 hm2
  · intro q hq c hc
    rw [hsz] at hq
    show (if c = d.size then dep t else dep c) = (if q = d.size then dep t else dep q) + 1
    by_cases hqd : q = d.size
    · rw [hqd, splitDataStep_children_new d t k p ht hps.1] at hc
      simp at hc
    · by_cases hqt : q = t
      · rw [hqt, splitDataStep_children_t d t k p ht (fun h => hpne h.symm)] at hc
        have hac := hwf.acyc t ht c hc
        have hcs : c ≠ d.size := by have := hwf.childLt t ht c hc; omega
        rw [if_neg hcs, if_neg hqd, hqt]
        omega
      · by_cases hqp : q = p
        · rw [hqp, splitDataStep_children_p d t k p hps.1 hpne] at hc
          rcases insertAfterIn_mem.mp hc with h | h
          · have hac := hwf.acyc p hps.1 c h
            have hcs : c ≠ d.size := by have := hwf.childLt p hps.1 c h; omega
            rw [if_neg hcs, if_neg hqd, hqp]
            omega
          · rw [if_pos h, if_neg hqd, hqp]
            omega
        · rw [splitDataStep_children_other d t k p q (by omega) hqt hqp] at hc
          have hac := hwf.acyc q (by omega) c hc
          have hcs : c ≠ d.size := by have := hwf.childLt q (by omega) c hc; omega
          rw [if_neg hcs, if_neg hqd]
          omega
  · intro q hq hcd3
    rw [hsz] at hq
    by_cases hqd : q = d.size
    · rw [hqd, splitDataStep_children_new d t k p ht hps.1]
    · have hk3 := splitDataStep_kind d t k p q (by omega) ht hps.1 hpne
      rw [isCharacterDataNode_congr _ d q q hk3] at hcd3
      by_cases hqt : q = t
      · rw [hqt] at hcd3 ⊢
        rw [splitDataStep_children_t d t k p ht (fun h => hpne h.symm)]
        exact hwf.charLeaf t ht hcd3
      · by_cases hqp : q = p
        · exfalso
          rw [hqp] at hcd3
          have := hwf.charLeaf p hps.1 hcd3
          rw [this] at hps
          simp at hps
        · rw [splitDataStep_children_other d t k p q (by omega) hqt hqp]
          exact hwf.charLeaf q (by omega) hcd3

/-- Conclusion of the splitNodeAt invariant: flattened text preserved below
every node strictly shallower than the split ancestor, attributes of
pre-existing nodes untouched, every recorded clone carrying exactly the
cloneAttrs image of its original's attributes, and the arena only growing. -/
def SplitConcl (node : Nat) (d : Dom) (dep : Nat → Nat)
    (out : Dom × Nat × List (Nat × Nat)) : Prop :=
  (∀ v, v < d.size → dep v < dep node → ∀ F, flatTextAux out.1 F v = flatTextAux d F v) ∧
  (∀ v, v < d.size → (out.1.getN v).attrs = (d.getN v).attrs) ∧
  (∀ oc ∈ out.2.2, oc.1 < out.1.size ∧ oc.2 < out.1.size ∧
    (out.1.getN oc.2).attrs = cloneAttrs ((out.1.getN oc.1).attrs)) ∧
  d.size ≤ out.1.size

/-- The clone-and-recurse branch of splitNodeAt satisfies the invariant,
given it for the recursive call. -/
theorem cloneBranch_invariant (node fuel : Nat)
    (IH : ∀ d2 (dep2 : Nat → Nat) dn2 doff2 out2, WF d2 dep2 → node < d2.size →
      splitNodeAt d2 fuel node dn2 doff2 = some out2 →
      dep2 node ≤ dep2 dn2 ∧ SplitConcl node d2 dep2 out2)
    (d : Dom) (dep : Nat → Nat) (hwf : WF d dep) (hnode : node < d.size)
    (t toff pT : Nat) (hpt : d.parentOf t = some pT)
    (hkind : d.isCharacterDataNode t = false)
    (out : Dom × Nat × List (Nat × Nat))
    (hout : (if t = node then
        some ((cloneSplitStep d t toff pT).1, (cloneSplitStep d t toff pT).2,
          [(t, (cloneSplitStep d t toff pT).2)])
      else
        match (cloneSplitStep d t toff pT).1.parentOf (cloneSplitStep d t toff pT).2 with
        | none => none
        | some pp =>
          match splitNodeAt (cloneSplitStep d t toff pT).1 fuel node pp
              ((cloneSplitStep d t toff pT).1.getNodeIndex (cloneSplitStep d t toff pT).2) with
          | none => none
          | some (dd, res, prs) =>
            some (dd, res, (t, (cloneSplitStep d t toff pT).2) :: prs)) = some out) :
    dep node ≤ dep t ∧ SplitConcl node d dep out := by
  have hps := d.parentOf_spec t pT hpt
  have ht : t < d.size := hwf.childLt pT hps.1 t hps.2
  have hdepx := hwf.acyc pT hps.1 t hps.2
  have hptne : pT ≠ t := by intro h; rw [h] at hdepx; omega
  have hwf3 := cloneSplitStep_wf d dep hwf t toff pT hpt
  have hflat := cloneSplitStep_flat d dep hwf t toff pT hpt hkind
  have hsz3 := cloneSplitStep_size d t toff pT
  by_cases htn : t = node
  · rw [if_pos htn] at hout
    injection hout with hout
    subst hout
    refine ⟨le_of_eq (by rw [htn]), ?_, ?_, ?_, ?_⟩
    · intro v hv hdv F
      exact (hflat F).1 v hv (by intro h; rw [h, htn] at hdv; omega)
    · intro v hv
      exact cloneSplitStep_attrs d t toff pT v hv ht hps.1 hptne
    · intro oc hoc
      simp only [List.mem_singleton] at hoc
      subst hoc
      refine ⟨?_, ?_, ?_⟩
      · show t < (cloneSplitStep d t toff pT).1.size
        rw [hsz3]
        omega
      · show (cloneSplitStep d t toff pT).2 < (cloneSplitStep d t toff pT).1.size
        rw [cloneSplitStep_snd, hsz3]
        omega
      · show ((cloneSplitStep d t toff pT).1.getN (cloneSplitStep d t toff pT).2).attrs =
          cloneAttrs (((cloneSplitStep d t toff pT).1.getN t).attrs)
        rw [cloneSplitStep_snd, cloneSplitStep_attrs_cl d t toff pT ht hps.1,
          cloneSplitStep_attrs d t toff pT t ht ht hps.1 hptne]
    · show d.size ≤ (cloneSplitStep d t toff pT).1.size
      rw [hsz3]
      omega
  · rw [if_neg htn] at hout
    split at hout
    · exact absurd hout (by simp)
    · rename_i pp hpp
      split at hout
      · exact absurd hout (by simp)
      · rename_i dd res prs hrec
        injection hout with hout
        subst hout
        have hIH := IH (cloneSplitStep d t toff pT).1
          (fun v => if v = d.size then dep t else dep v) pp
          ((cloneSplitStep d t toff pT).1.getNodeIndex (cloneSplitStep d t toff pT).2)
          (dd, res, prs) hwf3 (by rw [hsz3]; omega) hrec
        have hpsp := (cloneSplitStep d t toff pT).1.parentOf_spec _ pp hpp
        have hppne : pp ≠ d.size := by
          intro h
          have hac := hwf3.acyc pp hpsp.1 _ hpsp.2
          rw [cloneSplitStep_snd] at hac
          rw [h] at hac
          simp at hac
        have hdept : dep t = dep pp + 1 := by
          have hac := hwf3.acyc pp hpsp.1 _ hpsp.2
          rw [cloneSplitStep_snd] at hac
          simp only [if_pos rfl, if_neg hppne] at hac
          exact hac
        have hdnode : dep node ≤ dep pp := by
          have h1 := hIH.1
          simp only [if_neg hppne, if_neg (by omega : node ≠ d.size)] at h1
          exact h1
        have hszdd : d.size + 1 ≤ dd.size := by
          have := hIH.2.2.2.2
          rw [hsz3] at this
          exact this
        refine ⟨by omega, ?_, ?_, ?_, ?_⟩
        · intro v hv hdv F
          have hvne : v ≠ t := by intro h; rw [h] at hdv; omega
          have hstep := (hflat F).1 v hv hvne
          have hrecp := hIH.2.1 v (by rw [hsz3]; omega)
            (by simp only [if_neg (by omega : v ≠ d.size), if_neg (by omega : node ≠ d.size)]
                exact hdv) F
          show flatTextAux dd F v = flatTextAux d F v
          rw [hrecp, hstep]
        · intro v hv
          have hrecp := hIH.2.2.1 v (by rw [hsz3]; omega)
          show (dd.getN v).attrs = (d.getN v).attrs
          rw [hrecp, cloneSplitStep_attrs d t toff pT v hv ht hps.1 hptne]
        · intro oc hoc
          simp only [List.mem_cons] at hoc
          rcases hoc with h | h
          · subst h
            refine ⟨?_, ?_, ?_⟩
            · show t < dd.size
              omega
            · show (cloneSplitStep d t toff pT).2 < dd.size
              rw [cloneSplitStep_snd]
              omega
            · show (dd.getN (cloneSplitStep d t toff pT).2).attrs =
                cloneAttrs ((dd.getN t).attrs)
              have ha1 := hIH.2.2.1 (cloneSplitStep d t toff pT).2
                (by rw [hsz3, cloneSplitStep_snd]; omega)
              have ha2 := hIH.2.2.1 t (by rw [hsz3]; omega)
              rw [ha1, ha2, cloneSplitStep_snd, cloneSplitStep_attrs_cl d t toff pT ht hps.1,
                cloneSplitStep_attrs d t toff pT t ht ht hps.1 hptne]
          · exact hIH.2.2.2.1 oc h
        · show d.size ≤ dd.size
          omega

/-- The interior character data branch of splitNodeAt satisfies the
invariant, given it for the recursive call. -/
theorem dataBranch_invariant (node fuel : Nat)
    (IH : ∀ d2 (dep2 : Nat → Nat) dn2 doff2 out2, WF d2 dep2 → node < d2.size →
      splitNodeAt d2 fuel node dn2 doff2 = some out2 →
      dep2 node ≤ dep2 dn2 ∧ SplitConcl node d2 dep2 out2)
    (d : Dom) (dep : Nat → Nat) (hwf : WF d dep) (hnode : node < d.size)
    (dn doff p : Nat) (hp : d.parentOf dn = some p)
    (hkind : d.isCharacterDataNode dn = true)
    (out : Dom × Nat × List (Nat × Nat))
    (hout : (if dn = node then
        some ((splitDataStep d dn doff p).1, (splitDataStep d dn doff p).2, [])
      else
        match (splitDataStep d dn doff p).1.parentOf (splitDataStep d dn doff p).2 with
        | none => none
        | some pp =>
          splitNodeAt (splitDataStep d dn doff p).1 fuel node pp
            ((splitDataStep d dn doff p).1.getNodeIndex (splitDataStep d dn doff p).2)) =
      some out) :
    dep node ≤ dep dn ∧ SplitConcl node d dep out := by
  have hps := d.parentOf_spec dn p hp
  have hdn : dn < d.size := hwf.childLt p hps.1 dn hps.2
  have hdepx := hwf.acyc p hps.1 dn hps.2
  have hpne : p ≠ dn := by intro h; rw [h] at hdepx; omega
  have hwf3 := splitDataStep_wf d dep hwf dn doff p hp
  have hflat := splitDataStep_flat d dep hwf dn doff p hp hkind
  have hsz3 := splitDataStep_size d dn doff p
  by_cases htn : dn = node
  · rw [if_pos htn] at hout
    injection hout with hout
    subst hout
    refine ⟨le_of_eq (by rw [htn]), ?_, ?_, ?_, ?_⟩
    · intro v hv hdv F
      exact (hflat F).1 v hv (by intro h; rw [h, htn] at hdv; omega)
    · intro v hv
      exact splitDataStep_attrs d dn doff p v hv hdn hps.1 hpne
    · intro oc hoc
      simp at hoc
    · show d.size ≤ (splitDataStep d dn doff p).1.size
      rw [hsz3]
      omega
  · rw [if_neg htn] at hout
    split at hout
    · exact absurd hout (by simp)
    · rename_i pp hpp
      have hIH := IH (splitDataStep d dn doff p).1
        (fun v => if v = d.size then dep dn else dep v) pp
        ((splitDataStep d dn doff p).1.getNodeIndex (splitDataStep d dn doff p).2)
        out hwf3 (by rw [hsz3]; omega) hout
      have hpsp := (splitDataStep d dn doff p).1.parentOf_spec _ pp hpp
      have hppne : pp ≠ d.size := by
        intro h
        have hac := hwf3.acyc pp hpsp.1 _ hpsp.2
        rw [splitDataStep_snd] at hac
        rw [h] at hac
        simp at hac
      have hdept : dep dn = dep pp + 1 := by
        have hac := hwf3.acyc pp hpsp.1 _ hpsp.2
        rw [splitDataStep_snd] at hac
        simp only [if_pos rfl, if_neg hppne] at hac
        exact hac
      have hdnode : dep node ≤ dep pp := by
        have h1 := hIH.1
        simp only [if_neg hppne, if_neg (by omega : node ≠ d.size)] at h1
        exact h1
      have hszdd : d.size + 1 ≤ out.1.size := by
        have := hIH.2.2.2.2
        rw [hsz3] at this
        exact this
      refine ⟨by omega, ?_, ?_, ?_, ?_⟩
      · intro v hv hdv F
        have hvne : v ≠ dn := by intro h; rw [h] at hdv; omega
        have hstep := (hflat F).1 v hv hvne
        have hrecp := hIH.2.1 v (by rw [hsz3]; omega)
          (by simp only [if_neg (by omega : v ≠ d.size), if_neg (by omega : node ≠ d.size)]
              exact hdv) F
        rw [hrecp, hstep]
      · intro v hv
        have hrecp := hIH.2.2.1 v (by rw [hsz3]; omega)
        rw [hrecp, splitDataStep_attrs d dn doff p v hv hdn hps.1 hpne]
      · intro oc hoc
        exact hIH.2.2.2.1 oc hoc
      · omega

/-- splitNodeAt invariant: under well-formedness, a successful split only
touches the ancestor chain of `node`; subtrees strictly shallower than `node`
keep their flat text, no existing node's attribute list changes, and every
(original, clone) pair recorded has the clone's attributes equal to
`cloneAttrs` of the original's. -/
theorem splitNodeAt_invariant (node : Nat) :
    ∀ (fuel : Nat) (d : Dom) (dep : Nat → Nat) (dn doff : Nat)
      (out : Dom × Nat × List (Nat × Nat)), WF d dep → node < d.size →
      splitNodeAt d fuel node dn doff = some out →
      dep node ≤ dep dn ∧ SplitConcl node d dep out := by
  intro fuel
  induction fuel with
  | zero =>
    intro d dep dn doff out _ _ h
    exact absurd h (by rw [splitNodeAt]; simp)
  | succ f ih =>
    intro d dep dn doff out hwf hnode hsome
    rw [splitNodeAt] at hsome
    by_cases hcd : d.isCharacterDataNode dn = true
    · rw [if_pos hcd] at hsome
      by_cases h0 : doff = 0
      · rw [if_pos h0] at hsome
        split at hsome
        · exact absurd hsome (by simp)
        · rename_i t hpt
          split at hsome
          · exact absurd hsome (by simp)
          · rename_i pT hpT
            have hps := d.parentOf_spec dn t hpt
            have hkt : d.isCharacterDataNode t = false := by
              cases hx : d.isCharacterDataNode t
              · rfl
              · exfalso
                have hm := hps.2
                rw [hwf.charLeaf t hps.1 hx] at hm
                simp at hm
            have hres := cloneBranch_invariant node f ih d dep hwf hnode t
              (d.getNodeIndex dn) pT hpT hkt out hsome
            have hdd := hwf.acyc t hps.1 dn hps.2
            exact ⟨by omega, hres.2⟩
      · rw [if_neg h0] at hsome
        by_cases hlen : doff = d.getNodeLength dn
        · rw [if_pos hlen] at hsome
          split at hsome
          · exact absurd hsome (by simp)
          · rename_i t hpt
            split at hsome
            · exact absurd hsome (by simp)
            · rename_i pT hpT
              have hps := d.parentOf_spec dn t hpt
              have hkt : d.isCharacterDataNode t = false := by
                cases hx : d.isCharacterDataNode t
                · rfl
                · exfalso
                  have hm := hps.2
                  rw [hwf.charLeaf t hps.1 hx] at hm
                  simp at hm
              have hres := cloneBranch_invariant node f ih d dep hwf hnode t
                (d.getNodeIndex dn + 1) pT hpT hkt out hsome
              have hdd := hwf.acyc t hps.1 dn hps.2
              exact ⟨by omega, hres.2⟩
        · rw [if_neg hlen] at hsome
          split at hsome
          · exact absurd hsome (by simp)
          · rename_i p hp
            exact dataBranch_invariant node f ih d dep hwf hnode dn doff p hp hcd
              out hsome
    · rw [if_neg hcd] at hsome
      split at hsome
      · exact absurd hsome (by simp)
      · rename_i pT hpT
        exact cloneBranch_invariant node f ih d dep hwf hnode dn doff pT hpT
          (by simpa using hcd) out hsome

/-! ## Command registry (rangy-commands api surface) -/

/-- A registered command object; only its identity matters to the registry. -/
structure Command where
  name : String := ""
deriving DecidableEq, Repr

/-- A value passed to registerCommand: either a genuine Command instance or
any other object (which fails the instanceof test). -/
inductive JSObject where
  | command (c : Command)
  | notCommand
deriving DecidableEq, Repr

def notCommandError : String := "Object supplied is not a Command"

def noSuchCommandError : String := "No command registered with the name "

/-- registerCommand: throws unless the supplied object is a Command
instance, otherwise stores it under the lowercased name (later registrations
shadow earlier ones, as for assignment into the registry object). -/
def registerCommand (reg : List (String × Command)) (name : String) (obj : JSObject) :
    Except String (List (String × Command)) :=
  match obj with
  | .command c => .ok ((name.toLower, c) :: reg)
  | .notCommand => .error notCommandError

/-- getCommand: lowercases the name, returns the registered command or
throws a lookup error. -/
def getCommand (reg : List (String × Command)) (name : String) : Except String Command :=
  match reg.lookup name.toLower with
  | some c => .ok c
  | none => .error (noSuchCommandError ++ name)

/-! ## Selection processing order -/

/-- Index order of the applyToSelection loop: i starts at ranges.length and
the body of while (i--) processes ranges[i]. -/
def applySelectionOrder : Nat → List Nat
  | 0 => []
  | n + 1 => n :: applySelectionOrder n

/-- Index order of the undoToSelection loop: for (i = 0; i < len; ++i)
processes ranges[i]. -/
def undoSelectionOrderAux : Nat → Nat → List Nat
  | 0, _ => []
  | fuel + 1, i => i :: undoSelectionOrderAux fuel (i + 1)

def undoSelectionOrder (len : Nat) : List Nat := undoSelectionOrderAux len 0

theorem undoSelectionOrderAux_eq_range' :
    ∀ fuel i, undoSelectionOrderAux fuel i = List.range' i fuel := by
  intro fuel
  induction fuel with
  | zero => intro i; rfl
  | succ f ih => intro i; rw [undoSelectionOrderAux, List.range'_succ, ih]

/-! ## Claim theorems for the geometry and registry layers -/

def bogusName : String := "bogus"

/-- C2: the code's effective-containment predicate evaluated at a range
whose start container is a partially selected comment node returns true,
while the normative definition quoted in the code's own comment (and in the
claim), which requires a Text node, returns false. -/
theorem c2_comment_node_divergence :
    isEffectivelyContained exDom2 5 1 ⟨1, 2, 0, 1⟩ = true ∧
      textEffectivelyContained exDom2 5 1 ⟨1, 2, 0, 1⟩ = false := by
  constructor
  · decide
  · decide

/-- C3 counterexample: with two ranges in the selection, undoToSelection
processes index 0 first, not the highest index, so the ranges are not
processed in strictly decreasing index order. -/
theorem c3_counterexample :
    undoSelectionOrder 2 = [0, 1] ∧ undoSelectionOrder 2 ≠ [1, 0] := by
  constructor
  · decide
  · decide

/-- C3 amended: applyToSelection processes ranges in strictly decreasing
index order (the while (i--) loop), while undoToSelection processes them in
strictly increasing index order (the for (i = 0; i < len; ++i) loop). -/
theorem c3_selection_orders (n : Nat) :
    applySelectionOrder n = (List.range n).reverse ∧ undoSelectionOrder n = List.range n := by
  constructor
  · induction n with
    | zero => rfl
    | succ m ih => rw [applySelectionOrder, ih, List.range_succ]; simp
  · rw [undoSelectionOrder, undoSelectionOrderAux_eq_range', List.range_eq_range']

/-- C4 counterexample: the claim says the boundary loops stop at the
document root at the latest; in fact a start boundary (root, 0) climbs to
the root, takes the offset-0 branch and dereferences the root's null
parent, so blockExtend fails rather than stopping. -/
theorem c4_counterexample :
    startLoopF exDom4 5 0 0 = LoopRes.deref ∧ blockExtend exDom4 5 ⟨0, 0, 0, 1⟩ = none := by
  constructor
  · decide
  · decide

/-- C4 amended: both boundary-adjustment loops of blockExtend terminate on
every input over a well-formed finite arena — each iteration strictly
decreases a depth-and-offset measure, so with fuel above the measure
neither loop exhausts it; termination, however, is either by breaking or by
dereferencing the null parent of the root, not always by stopping at the
root. -/
theorem c4_blockExtend_loops_terminate (d : Dom) (dep : Nat → Nat)
    (hdep : Acyc d dep) (hlen : ChildLenLe d) (fuel : Nat) (r : Range)
    (hs : dep r.sn * (d.size + 3) + min r.so (d.size + 1) < fuel)
    (he : dep r.en * (d.size + 3) + (d.size + 3 - min r.eo (d.size + 3)) < fuel) :
    startLoopF d fuel r.sn r.so ≠ LoopRes.out ∧ endLoopF d fuel r.en r.eo ≠ LoopRes.out :=
  ⟨startLoopF_no_out d dep hdep hlen fuel r.sn r.so hs,
   endLoopF_no_out d dep hdep hlen fuel r.en r.eo he⟩

theorem c4_witness :
    startLoopF exDom5 50 0 1 ≠ LoopRes.out ∧ endLoopF exDom5 50 0 2 ≠ LoopRes.out :=
  c4_blockExtend_loops_terminate exDom5 (fun i => if i = 0 then 0 else 1)
    (by decide) (by decide) 50 ⟨0, 1, 0, 2⟩ (by decide) (by decide)

/-- C5: blockExtend is idempotent — re-applying it to a range it
successfully produced returns that same range unchanged. -/
theorem c5_blockExtend_idempotent (d : Dom) (fuel : Nat) (r r' : Range)
    (h : blockExtend d fuel r = some r') : blockExtend d fuel r' = some r' :=
  blockExtend_some_idem d fuel r r' h

theorem c5_witness : blockExtend exDom5 9 ⟨0, 1, 0, 2⟩ = some ⟨0, 1, 0, 2⟩ :=
  c5_blockExtend_idempotent exDom5 9 ⟨0, 1, 0, 2⟩ ⟨0, 1, 0, 2⟩ (by decide)

/-- C8: registerCommand errors exactly on non-Command objects and otherwise
stores the command under the lowercased name; getCommand errors exactly
when no command is registered under the case-insensitive name, otherwise
returns the registered command; in particular a lookup of an unregistered
name always raises. -/
theorem c8_registry (reg : List (String × Command)) (name : String) (obj : JSObject) :
    ((∃ e, registerCommand reg name obj = .error e) ↔ ∀ c, obj ≠ .command c) ∧
    (∀ c, obj = .command c →
      registerCommand reg name obj = .ok ((name.toLower, c) :: reg)) ∧
    ((∃ e, getCommand reg name = .error e) ↔ reg.lookup name.toLower = none) ∧
    (∀ c, reg.lookup name.toLower = some c → getCommand reg name = .ok c) ∧
    getCommand [] bogusName = .error (noSuchCommandError ++ bogusName) := by
  refine ⟨?_, ?_, ?_, ?_, ?_⟩
  · cases obj with
    | command c => simp [registerCommand]
    | notCommand => simp [registerCommand]
  · intro c hc
    subst hc
    rfl
  · cases hl : reg.lookup name.toLower with
    | none => simp [getCommand, hl]
    | some c => simp [getCommand, hl]
  · intro c hc
    simp [getCommand, hc]
  · rfl

/-- Concrete instance of the C8 registry theorem: empty registry, the bogus
name, and a non-Command object. -/
theorem c8_witness :
    ((∃ e, registerCommand [] bogusName .notCommand = .error e) ↔
      ∀ c, (JSObject.notCommand : JSObject) ≠ .command c) ∧
    (∀ c, (JSObject.notCommand : JSObject) = .command c →
      registerCommand [] bogusName .notCommand = .ok ((bogusName.toLower, c) :: [])) ∧
    ((∃ e, getCommand [] bogusName = .error e) ↔
      ([] : List (String × Command)).lookup bogusName.toLower = none) ∧
    (∀ c, ([] : List (String × Command)).lookup bogusName.toLower = some c →
      getCommand [] bogusName = .ok c) ∧
    getCommand [] bogusName = .error (noSuchCommandError ++ bogusName) :=
  c8_registry [] bogusName .notCommand

/-- Lookup of a key other than the erased one is unchanged by erasing the
first binding of another key. -/
theorem lookup_eraseP_ne (k j : String) (hne : k ≠ j) :
    ∀ ats : List (String × String),
      (ats.eraseP (fun a => a.1 == j)).lookup k = ats.lookup k := by
  intro ats
  induction ats with
  | nil => rfl
  | cons a rest ihr =>
    obtain ⟨k1, v1⟩ := a
    rw [List.eraseP_cons]
    by_cases hj : k1 = j
    · have h1 : ((fun a => (a : String × String).1 == j) (k1, v1)) = true := by simp [hj]
      have h2 : (k == k1) = false := by
        apply beq_eq_false_iff_ne.mpr
        rw [hj]
        exact hne
      simp only [h1, cond_true]
      simp [List.lookup, h2]
    · have h1 : ((fun a => (a : String × String).1 == j) (k1, v1)) = false := by simp [hj]
      simp only [h1, cond_false]
      cases hkk : (k == k1) with
      | true => simp [List.lookup, hkk]
      | false => simp [List.lookup, hkk, ihr]

/-- A key absent from the key list looks up to none. -/
theorem lookup_not_mem (j : String) :
    ∀ ats : List (String × String), j ∉ ats.map Prod.fst → ats.lookup j = none := by
  intro ats
  induction ats with
  | nil => intro _; rfl
  | cons a rest ihr =>
    obtain ⟨k1, v1⟩ := a
    intro hmem
    simp only [List.map_cons, List.mem_cons] at hmem
    push_neg at hmem
    have hk1 : (j == k1) = false := beq_eq_false_iff_ne.mpr hmem.1
    simp [List.lookup, hk1, ihr hmem.2]

/-- Under duplicate-free keys, erasing the first binding of a key removes
its binding entirely. -/
theorem lookup_eraseP_none (j : String) :
    ∀ ats : List (String × String), (ats.map Prod.fst).Nodup →
      (ats.eraseP (fun a => a.1 == j)).lookup j = none := by
  intro ats
  induction ats with
  | nil => intro _; rfl
  | cons a rest ihr =>
    obtain ⟨k1, v1⟩ := a
    intro hnd
    simp only [List.map_cons, List.nodup_cons] at hnd
    rw [List.eraseP_cons]
    by_cases hj : k1 = j
    · have h1 : ((fun a => (a : String × String).1 == j) (k1, v1)) = true := by simp [hj]
      simp only [h1, cond_true]
      exact lookup_not_mem j rest (by rw [← hj]; exact hnd.1)
    · have h1 : ((fun a => (a : String × String).1 == j) (k1, v1)) = false := by simp [hj]
      have hk1 : (j == k1) = false := beq_eq_false_iff_ne.mpr (fun h => hj h.symm)
      simp only [h1, cond_false]
      simp [List.lookup, hk1, ihr hnd.2]

def exDom7 : Dom :=
  ⟨[{ kind := .element, tag := "div", display := "block", children := [1] },
    { kind := .element, tag := "span", display := "inline", attrs := [("id", "")],
      children := [2] },
    { kind := .text, tag := "#text", data := "ab".toList }]⟩

def exDep7 : Nat → Nat := fun v => v

def c7out : Dom × Nat × List (Nat × Nat) :=
  (splitNodeAt exDom7 3 1 2 1).getD (exDom7, 0, [])

/-- C7: the claim says the id attribute is never duplicated onto a clone.
The code only strips the clone's id when the id property is truthy, so an
element whose id attribute is present but empty passes its id on to the
clone produced by splitNodeAt. -/
theorem c7_counterexample :
    splitNodeAt exDom7 3 1 2 1 = some c7out ∧ (1, 4) ∈ c7out.2.2 ∧
    (exDom7.getN 1).attrs.lookup idAttr = some "" ∧
    (c7out.1.getN 4).attrs.lookup idAttr = some "" :=
  ⟨rfl, by decide, rfl, rfl⟩

/-- C7 (amended): when splitNodeAt succeeds on a well-formed arena, every
subtree strictly shallower than the split target keeps its flattened text,
no existing node's attribute list changes, and each (original, clone) pair
recorded on the split path satisfies: all non-id attributes carry over to
the clone unchanged; when the original's id is absent or empty the clone's
attributes equal the original's exactly (so an empty id IS duplicated);
and when the original's id is non-empty (keys duplicate-free) the clone
carries no id binding. -/
theorem c7_splitNodeAt_frame (d : Dom) (dep : Nat → Nat) (fuel node dn doff : Nat)
    (out : Dom × Nat × List (Nat × Nat)) (hwf : WF d dep) (hnode : node < d.size)
    (hsome : splitNodeAt d fuel node dn doff = some out) :
    (∀ v, v < d.size → dep v < dep node →
      ∀ F, flatTextAux out.1 F v = flatTextAux d F v) ∧
    (∀ v, v < d.size → (out.1.getN v).attrs = (d.getN v).attrs) ∧
    (∀ oc ∈ out.2.2, oc.1 < out.1.size ∧ oc.2 < out.1.size ∧
      (∀ k, k ≠ idAttr →
        ((out.1.getN oc.2).attrs).lookup k = ((out.1.getN oc.1).attrs).lookup k) ∧
      (((out.1.getN oc.1).attrs.lookup idAttr).getD "" = "" →
        (out.1.getN oc.2).attrs = (out.1.getN oc.1).attrs) ∧
      (((out.1.getN oc.1).attrs.map Prod.fst).Nodup →
        ((out.1.getN oc.1).attrs.lookup idAttr).getD "" ≠ "" →
        (out.1.getN oc.2).attrs.lookup idAttr = none)) := by
  obtain ⟨hle, h1, h2, h3, h4⟩ :=
    splitNodeAt_invariant node fuel d dep dn doff out hwf hnode hsome
  refine ⟨h1, h2, ?_⟩
  intro oc hoc
  obtain ⟨ho1, ho2, hca⟩ := h3 oc hoc
  refine ⟨ho1, ho2, ?_, ?_, ?_⟩
  · intro k hk
    rw [hca, cloneAttrs]
    split
    · exact lookup_eraseP_ne k idAttr hk _
    · rfl
  · intro hid
    rw [hca, cloneAttrs, if_neg (by simp [hid])]
  · intro hnd hid
    rw [hca, cloneAttrs, if_pos hid]
    exact lookup_eraseP_none idAttr _ hnd

/-- Concrete instance of the C7 frame theorem on the three-node example. -/
theorem c7_witness :
    (∀ v, v < exDom7.size → exDep7 v < exDep7 1 →
      ∀ F, flatTextAux c7out.1 F v = flatTextAux exDom7 F v) ∧
    (∀ v, v < exDom7.size → (c7out.1.getN v).attrs = (exDom7.getN v).attrs) ∧
    (∀ oc ∈ c7out.2.2, oc.1 < c7out.1.size ∧ oc.2 < c7out.1.size ∧
      (∀ k, k ≠ idAttr →
        ((c7out.1.getN oc.2).attrs).lookup k = ((c7out.1.getN oc.1).attrs).lookup k) ∧
      (((c7out.1.getN oc.1).attrs.lookup idAttr).getD "" = "" →
        (c7out.1.getN oc.2).attrs = (c7out.1.getN oc.1).attrs) ∧
      (((c7out.1.getN oc.1).attrs.map Prod.fst).Nodup →
        ((c7out.1.getN oc.1).attrs.lookup idAttr).getD "" ≠ "" →
        (c7out.1.getN oc.2).attrs.lookup idAttr = none)) :=
  c7_splitNodeAt_frame exDom7 exDep7 3 1 2 1 c7out
    ⟨by decide, by decide, by decide, by decide, by decide⟩ (by decide) rfl

def classNameProp : String := "className"

/-! ## CssClassApplier: class strings and attributes -/

def classAttr : String := "class"

def spaceStr : String := " "

/-- Split a character list on spaces, dropping empty pieces. -/
def tokenizeAux : List Char → List Char → List String
  | [], cur => if cur.isEmpty then [] else [String.mk cur.reverse]
  | c :: rest, cur =>
    if c = ' ' then
      if cur.isEmpty then tokenizeAux rest []
      else String.mk cur.reverse :: tokenizeAux rest []
    else tokenizeAux rest (c :: cur)

/-- The whitespace-separated class tokens of a className string (the module
works with the regex (?:^|\s)cls(?:\s|$); on the single-space-separated
class strings this development constructs, token membership is the same
test). -/
def classTokens (s : String) : List String :=
  tokenizeAux s.toList []

/-- hasClass: false for an empty className, otherwise a whole-token match of
the class in the className. -/
def hasClassStr (cn css : String) : Bool :=
  cn ≠ "" && (classTokens cn).contains css

/-- addClass on a className string: append with a space separator when the
className is non-empty and lacks the class, start it otherwise. -/
def addClassStr (cn css : String) : String :=
  if cn ≠ "" then
    if hasClassStr cn css then cn else cn ++ spaceStr ++ css
  else css

def eraseFirstTok : List String → String → List String
  | [], _ => []
  | t :: rest, css => if t = css then rest else t :: eraseFirstTok rest css

/-- removeClass on a className string: the regex replaces the first
whole-token occurrence of the class, collapsing the surrounding whitespace
to a single space exactly when the token was interior; on single-space
class strings this is removal of the first occurrence of the token. -/
def removeClassStr (cn css : String) : String :=
  if cn ≠ "" then String.intercalate spaceStr (eraseFirstTok (classTokens cn) css)
  else cn

def insertSorted (x : String) : List String → List String
  | [] => [x]
  | y :: ys => if x ≤ y then x :: y :: ys else y :: insertSorted x ys

def sortTokens : List String → List String
  | [] => []
  | x :: xs => insertSorted x (sortTokens xs)

/-- sortClassName: split on whitespace, sort lexicographically, rejoin. -/
def sortClassName (cn : String) : String :=
  String.intercalate spaceStr (sortTokens (classTokens cn))

/-- The className property of a node, reflected by its class attribute. -/
def Dom.className (d : Dom) (n : Nat) : String :=
  (((d.getN n).attrs.lookup classAttr).getD "")

def getSortedClassName (d : Dom) (n : Nat) : String :=
  sortClassName (d.className n)

def haveSameClasses (d : Dom) (n1 n2 : Nat) : Bool :=
  getSortedClassName d n1 == getSortedClassName d n2

/-- Replace the first binding of a key, appending when absent (the host
attribute map write). -/
def upsertAttr : List (String × String) → String → String → List (String × String)
  | [], k, v => [(k, v)]
  | a :: rest, k, v => if a.1 = k then (k, v) :: rest else a :: upsertAttr rest k v

/-- Write the className property of a node. -/
def Dom.setClassName (d : Dom) (n : Nat) (v : String) : Dom :=
  d.setN n { d.getN n with attrs := upsertAttr (d.getN n).attrs classAttr v }

def hasClassEl (d : Dom) (n : Nat) (css : String) : Bool :=
  hasClassStr (d.className n) css

def addClassEl (d : Dom) (n : Nat) (css : String) : Dom :=
  d.setClassName n (addClassStr (d.className n) css)

def removeClassEl (d : Dom) (n : Nat) (css : String) : Dom :=
  d.setClassName n (removeClassStr (d.className n) css)

/-- elementsHaveSameNonClassAttributes: equal attribute count and every
non-class attribute of the first is present with the same value on the
second (attr.specified is true for all modelled attributes; a missing
counterpart makes the host throw, which the pipeline never reaches). -/
def elementsHaveSameNonClassAttributes (d : Dom) (n1 n2 : Nat) : Bool :=
  (d.getN n1).attrs.length == (d.getN n2).attrs.length &&
    (d.getN n1).attrs.all (fun a =>
      a.1 == classAttr || (d.getN n2).attrs.lookup a.1 == some a.2)

/-- elementHasNonClassAttributes: some attribute not in the exceptions list
and not the class attribute. -/
def elementHasNonClassAttributes (d : Dom) (n : Nat) (exceptions : List String) : Bool :=
  (d.getN n).attrs.any (fun a => !exceptions.contains a.1 && a.1 ≠ classAttr)

/-- A host element property read, reflected through the attribute map with
className mapped to the class attribute. -/
def propRead (d : Dom) (n : Nat) (p : String) : String :=
  if p = classNameProp then d.className n
  else (((d.getN n).attrs.lookup p).getD "")

/-- elementHasProps: every configured property reads back equal. -/
def elementHasProps (d : Dom) (n : Nat) (props : List (String × String)) : Bool :=
  props.all (fun pv => propRead d n pv.1 == pv.2)

/-! ## CssClassApplier: range geometry helpers -/

/-- replaceWithOwnChildren: move the element's children in front of it in
its parent, then remove it (none when it has no parent). -/
def replaceWithOwnChildren (d : Dom) (el : Nat) : Option Dom :=
  match d.parentOf el with
  | none => none
  | some p =>
    let d2 := d.setChildren p
      (((d.children p).map (fun c => if c = el then d.children el else [c])).flatten)
    some (d2.setChildren el [])

/-- Modelled from the spec: the core intersection/toString test behind
rangeSelectsAnyText — the intersection of the range with the text node's
own span, non-empty exactly when it is non-collapsed (all its positions lie
inside the one text node, so a non-collapsed intersection selects at least
one character). -/
def rangeSelectsAnyText (d : Dom) (r : Range) (tn : Nat) : Bool :=
  let len := d.getNodeLength tn
  let s : Nat × Nat :=
    if d.comparePoints r.sn r.so tn 0 < 0 then (tn, 0) else (r.sn, r.so)
  let e : Nat × Nat :=
    if 0 < d.comparePoints r.en r.eo tn len then (tn, len) else (r.en, r.eo)
  d.comparePoints s.1 s.2 e.1 e.2 < 0

/-- Modelled from the spec: isPointInRange — the point lies between the
range's boundaries inclusive. -/
def isPointInRange (d : Dom) (r : Range) (n o : Nat) : Bool :=
  d.comparePoints r.sn r.so n o ≤ 0 && d.comparePoints n o r.en r.eo ≤ 0

/-- Modelled from the spec: containsNode — the node's own span, from just
before to just after it in its parent, lies inside the range. -/
def containsNodeR (d : Dom) (r : Range) (n : Nat) : Bool :=
  match d.parentOf n with
  | none => false
  | some p =>
    let idx := d.getNodeIndex n
    d.comparePoints r.sn r.so p idx ≤ 0 && d.comparePoints p (idx + 1) r.en r.eo ≤ 0

/-- Modelled from the spec: selectNode — a range spanning exactly the node
inside its parent. -/
def selectNodeRange (d : Dom) (n : Nat) : Option Range :=
  match d.parentOf n with
  | none => none
  | some p =>
    let idx := d.getNodeIndex n
    some ⟨p, idx, p, idx + 1⟩

/-- isSplitPoint: a character-data boundary splits when it is interior or
has a sibling on the outer side; an element boundary splits when strictly
between children. -/
def isSplitPoint (d : Dom) (n o : Nat) : Bool :=
  if d.isCharacterDataNode n then
    if o = 0 then (d.prevSibling n).isSome
    else if o = d.getNodeLength n then (d.nextSibling n).isSome
    else true
  else 0 < o && o < (d.children n).length

/-- Modelled from the spec: splitDataNode — the node keeps the data before
the offset, a fresh node of the same kind carrying the rest is inserted
right after it. -/
def splitDataNode (d : Dom) (tn off : Nat) : Option (Dom × Nat) :=
  match d.parentOf tn with
  | none => none
  | some p =>
    let nd := d.getN tn
    let d2 := d.setN tn { nd with data := nd.data.take off }
    let pr := d2.push { nd with
      data := nd.data.drop off
      children := [] }
    some (pr.1.setChildren p (insertAfterIn (pr.1.children p) pr.2 tn), pr.2)

/-- Modelled from the spec: splitBoundaries forces both boundaries onto
node boundaries — the end container is split first when the end falls
strictly inside character data, then the start container, after which the
start moves to the new node at offset zero; an end boundary sharing the
start container, or sitting in its parent after it, is shifted to keep
denoting the same position. -/
def splitBoundaries (d : Dom) (r : Range) : Option (Dom × Range) :=
  let startEndSame := r.sn = r.en
  let step1 : Option (Dom × Range) :=
    if d.isCharacterDataNode r.en && 0 < r.eo && r.eo < d.getNodeLength r.en then
      match splitDataNode d r.en r.eo with
      | none => none
      | some (d1, _) => some (d1, r)
    else some (d, r)
  match step1 with
  | none => none
  | some (d1, r1) =>
    if d1.isCharacterDataNode r1.sn && 0 < r1.so && r1.so < d1.getNodeLength r1.sn then
      match splitDataNode d1 r1.sn r1.so with
      | none => none
      | some (d2, newNode) =>
        if startEndSame then some (d2, ⟨newNode, 0, newNode, r1.eo - r1.so⟩)
        else
          let eo2 :=
            if d2.parentOf newNode = some r1.en && d2.getNodeIndex newNode ≤ r1.eo then
              r1.eo + 1
            else r1.eo
          some (d2, ⟨newNode, 0, r1.en, eo2⟩)
    else some (d1, r1)

/-- Document order below a node: the node, then its subtrees left to right. -/
def docOrderAux (d : Dom) : Nat → Nat → List Nat
  | 0, n => [n]
  | fuel + 1, n => n :: ((d.children n).map (fun c => docOrderAux d fuel c)).flatten

def docOrder (d : Dom) (root : Nat) : List Nat := docOrderAux d d.size root

/-- Modelled from the spec: getNodes([3]) — the text nodes effectively
contained in the range, in document order (section 4.4 collects the text
nodes effectively contained). -/
def rangeTextNodes (d : Dom) (r : Range) : List Nat :=
  (docOrder d (d.getRootContainer r.sn)).filter (fun n =>
    (d.getN n).kind == .text && isEffectivelyContained d (d.size + 1) n r)

/-- Modelled from the spec: a whitespace-only text node. -/
def isWhiteSpaceNode (d : Dom) (n : Nat) : Bool :=
  (d.getN n).data.all (fun c => c.isWhitespace)

/-! ## CssClassApplier: the applier and the merge machinery -/

def inlineStr : String := "inline"

def defaultTagName : String := "span"

/-- The per-instance state of a CssClassApplier (section of the constructor
that survives: class, tag names, wrapper tag, properties, flags). -/
structure Applier where
  cssClass : String
  elementTagName : String := defaultTagName
  tagNames : List String := [defaultTagName]
  elementProperties : List (String × String) := []
  elementSortedClassName : String
  attrExceptions : List String := []
  ignoreWhiteSpace : Bool := false
  normalize : Bool := true
deriving DecidableEq, Repr

/-- new CssClassApplier(cssClass) with no options and no tag names: the
defaults of the constructor (normalize true, tag list [elementTagName],
no element properties, elementSortedClassName = cssClass). -/
def mkApplier (css : String) : Applier :=
  { cssClass := css, elementSortedClassName := css }

/-- getAncestorWithClass: climb the parent chain to the first element with
an allowed tag name and the class, none at the root. -/
def getAncestorWithClassAux (d : Dom) (ap : Applier) : Nat → Option Nat → Option Nat
  | _, none => none
  | 0, some _ => none
  | fuel + 1, some n =>
    if (d.getN n).kind == .element && ap.tagNames.contains (d.getN n).tag &&
        hasClassEl d n ap.cssClass then
      some n
    else getAncestorWithClassAux d ap fuel (d.parentOf n)

def getAncestorWithClass (d : Dom) (ap : Applier) (tn : Nat) : Option Nat :=
  getAncestorWithClassAux d ap (d.size + 1) (d.parentOf tn)

/-- createContainer: a fresh wrapper element with the configured tag,
properties, and the class. -/
def createContainer (d : Dom) (ap : Applier) : Dom × Nat :=
  let attrs := ap.elementProperties.foldl
    (fun acc pv =>
      if pv.1 = classNameProp then upsertAttr acc classAttr pv.2
      else upsertAttr acc pv.1 pv.2) []
  d.push { kind := .element
           tag := ap.elementTagName
           display := inlineStr
           attrs := upsertAttr attrs classAttr
             (addClassStr ((attrs.lookup classAttr).getD "") ap.cssClass) }

/-- applyToTextNode: when the parent has the text node as its only child
and an allowed tag, add the class to the parent; otherwise wrap the text
node in a fresh container inserted in its place. -/
def applyToTextNode (d : Dom) (ap : Applier) (tn : Nat) : Option Dom :=
  match d.parentOf tn with
  | none => none
  | some parent =>
    if (d.children parent).length == 1 && ap.tagNames.contains (d.getN parent).tag then
      some (addClassEl d parent ap.cssClass)
    else
      let pr := createContainer d ap
      let d3 := pr.1.setChildren parent
        ((pr.1.children parent).map (fun c => if c = tn then pr.2 else c))
      some (d3.setChildren pr.2 [tn])

/-- isRemovable: the wrapper tag, exactly the configured sorted class set,
the configured properties, and no other non-class attributes. -/
def isRemovable (d : Dom) (ap : Applier) (el : Nat) : Bool :=
  (d.getN el).tag == ap.elementTagName &&
    getSortedClassName d el == ap.elementSortedClassName &&
    elementHasProps d el ap.elementProperties &&
    !elementHasNonClassAttributes d el ap.attrExceptions

def areElementsMergeable (d : Dom) (n1 n2 : Nat) : Bool :=
  (d.getN n1).tag == (d.getN n2).tag && haveSameClasses d n1 n2 &&
    elementsHaveSameNonClassAttributes d n1 n2

/-- createAdjacentMergeableTextNodeGetter: the adjacent sibling when it is
a text node; otherwise, when asked to check the parent, the nearest child
of a mergeable adjacent element — returned without any node-type check. -/
def adjacentMergeableTextNode (d : Dom) (forward : Bool) (tn : Nat)
    (checkParentElement : Bool) : Option Nat :=
  match (if forward then d.nextSibling tn else d.prevSibling tn) with
  | some adj => if (d.getN adj).kind == .text then some adj else none
  | none =>
    if checkParentElement then
      match d.parentOf tn with
      | none => none
      | some el =>
        match (if forward then d.nextSibling el else d.prevSibling el) with
        | some adj2 =>
          if (d.getN adj2).kind == .element && areElementsMergeable d el adj2 then
            if forward then (d.children adj2).head? else (d.children adj2).getLast?
          else none
        | none => none
    else none

/-- The length property of a node: character count for character data,
undefined (none) on anything else. -/
def lengthProp (d : Dom) (n : Nat) : Option Nat :=
  if d.isCharacterDataNode n then some (d.getN n).data.length else none

/-- A Merge descriptor: for an element the first text node is its last
child (whatever its type, possibly missing), otherwise the node itself. -/
structure MergeT where
  isElementMerge : Bool
  firstTextNode : Option Nat
  textNodes : List (Option Nat)
deriving DecidableEq, Repr

def mkMerge (d : Dom) (firstNode : Nat) : MergeT :=
  let isEl := (d.getN firstNode).kind == .element
  let ftn := if isEl then (d.children firstNode).getLast? else some firstNode
  { isElementMerge := isEl, firstTextNode := ftn, textNodes := [ftn] }

/-- Merge.getLength: the sum of the length properties (undefined when any
participant lacks one). -/
def mergeGetLength (d : Dom) (m : MergeT) : Option Nat :=
  m.textNodes.foldl
    (fun acc tn? => match acc, tn? with
      | some n, some tn =>
        match lengthProp d tn with
        | some k => some (n + k)
        | none => none
      | _, _ => none) (some 0)

/-- The doMerge loop: collect each participant's data; remove every
participant but the first from its parent, removing the parent too when it
becomes empty.  none models the host exception on a missing node or
parent. -/
def doMergeAux (d : Dom) (first : Bool) : List (Option Nat) → Option (Dom × List Char)
  | [] => some (d, [])
  | tn? :: rest =>
    match tn? with
    | none => none
    | some tn =>
      let bit := (d.getN tn).data
      if first then
        match doMergeAux d false rest with
        | none => none
        | some (d2, bits) => some (d2, bit ++ bits)
      else
        match d.parentOf tn with
        | none => none
        | some p =>
          let d2 := d.setChildren p ((d.children p).erase tn)
          let d3? : Option Dom :=
            if (d2.children p).isEmpty then
              match d2.parentOf p with
              | none => none
              | some gp => some (d2.setChildren gp ((d2.children gp).erase p))
            else some d2
          match d3? with
          | none => none
          | some d3 =>
            match doMergeAux d3 false rest with
            | none => none
            | some (d4, bits) => some (d4, bit ++ bits)

/-- doMerge: run the loop, then write the joined text into the first
participant's data property. -/
def doMerge (d : Dom) (m : MergeT) : Option Dom :=
  match doMergeAux d true m.textNodes with
  | none => none
  | some (d2, bits) =>
    match m.firstTextNode with
    | none => none
    | some ftn => some (d2.setN ftn { d2.getN ftn with data := bits })

/-! ## CssClassApplier: postApply and the range/selection operations -/

/-- The mutable locals of the postApply loop: the merges built so far (head
first), whether the head is the active currentMerge, and the captured
boundary values (none models null/undefined where applicable). -/
structure PAState where
  mergesRev : List MergeT
  current : Bool
  rsn : Option Nat
  rso : Option Nat
  ren : Option Nat
  reo : Option Nat
deriving DecidableEq, Repr

/-- currentMerge.textNodes.push(x). -/
def pushCurrentTN (st : PAState) (x : Option Nat) : PAState :=
  { st with mergesRev :=
      match st.mergesRev with
      | [] => []
      | m :: ms => { m with textNodes := m.textNodes ++ [x] } :: ms }

/-- One iteration of the postApply merge-collection loop. -/
def postApplyStep (d : Dom) (isUndo : Bool) (firstNode lastNode : Nat)
    (st : PAState) (tn : Nat) : Option PAState :=
  match adjacentMergeableTextNode d false tn (!isUndo) with
  | none => some { st with current := false }
  | some prev =>
    let st1 :=
      if st.current then pushCurrentTN st (some tn)
      else pushCurrentTN
        { st with mergesRev := mkMerge d prev :: st.mergesRev
                  current := true } (some tn)
    match st1.mergesRev.head? with
    | none => none
    | some cm =>
      let upd1 : Option PAState :=
        if tn = firstNode then
          match cm.firstTextNode with
          | none => none
          | some ftn => some { st1 with rsn := some ftn
                                        rso := lengthProp d ftn }
        else some st1
      match upd1 with
      | none => none
      | some st2 =>
        if tn = lastNode then
          some { st2 with ren := cm.firstTextNode
                          reo := mergeGetLength d cm }
        else some st2

/-- postApply: collect merges over the affected text nodes, consider one
trailing mergeable node after the last, execute the merges in order and
rewrite the range to the captured boundaries (none models the host
exception on a null node or a non-numeric offset). -/
def postApply (d : Dom) (textNodes : List Nat) (r : Range) (isUndo : Bool) :
    Option (Dom × Range) :=
  match textNodes.head?, textNodes.getLast? with
  | some firstNode, some lastNode =>
    let st0 : PAState :=
      { mergesRev := []
        current := false
        rsn := some firstNode
        rso := some 0
        ren := some lastNode
        reo := lengthProp d lastNode }
    match textNodes.foldl (fun acc tn =>
        match acc with
        | none => none
        | some st => postApplyStep d isUndo firstNode lastNode st tn) (some st0) with
    | none => none
    | some st1 =>
      let st2 :=
        match adjacentMergeableTextNode d true lastNode (!isUndo) with
        | some nxt =>
          pushCurrentTN
            (if st1.current then st1
             else { st1 with mergesRev := mkMerge d lastNode :: st1.mergesRev
                             current := true }) (some nxt)
        | none => st1
      if st2.mergesRev.isEmpty then some (d, r)
      else
        match st2.mergesRev.reverse.foldl (fun acc m =>
            match acc with
            | none => none
            | some dd => doMerge dd m) (some d) with
        | none => none
        | some d2 =>
          match st2.rsn, st2.rso, st2.ren, st2.reo with
          | some a, some b, some c, some e => some (d2, ⟨a, b, c, e⟩)
          | _, _, _, _ => none
  | _, _ => none

/-- applyToRange: split the boundaries, collect the effectively contained
text nodes with selected text, wrap each one that is neither ignored
whitespace nor already under a matching ancestor, span the range over the
affected nodes, then normalize. -/
def applyToRange (d : Dom) (ap : Applier) (r : Range) : Option (Dom × Range) :=
  match splitBoundaries d r with
  | none => none
  | some (d1, r1) =>
    let textNodes := (rangeTextNodes d1 r1).filter (fun tn => rangeSelectsAnyText d1 r1 tn)
    if textNodes.isEmpty then some (d1, r1)
    else
      match textNodes.foldl (fun acc tn =>
          match acc with
          | none => none
          | some dd =>
            if !(ap.ignoreWhiteSpace && isWhiteSpaceNode dd tn) &&
                (getAncestorWithClass dd ap tn).isNone then
              applyToTextNode dd ap tn
            else some dd) (some d1) with
      | none => none
      | some d2 =>
        match textNodes.head?, textNodes.getLast? with
        | some f, some l =>
          let r2 : Range := ⟨f, 0, l, (d2.getN l).data.length⟩
          if ap.normalize then postApply d2 textNodes r2 false
          else some (d2, r2)
        | _, _ => none

/-- undoToTextNode: when the matched ancestor is not wholly inside the
range, split it at whichever range boundaries fall strictly inside it
(moving the range end past the ancestor when the end was a split point);
then unwrap the (possibly reduced) ancestor when removable, else strip the
class. -/
def undoToTextNode (d : Dom) (ap : Applier) (_tn : Nat) (r : Range) (anc : Nat) :
    Option (Dom × Range) :=
  let step1 : Option (Dom × Range × Nat) :=
    if !containsNodeR d r anc then
      match selectNodeRange d anc with
      | none => none
      | some ancestorRange =>
        let afterEnd : Option (Dom × Range) :=
          if isPointInRange d ancestorRange r.en r.eo && isSplitPoint d r.en r.eo then
            match splitNodeAt d (d.size + 2) anc r.en r.eo with
            | none => none
            | some out =>
              match out.1.parentOf anc with
              | none => none
              | some p => some (out.1, ⟨r.sn, r.so, p, out.1.getNodeIndex anc + 1⟩)
          else some (d, r)
        match afterEnd with
        | none => none
        | some (d1, r1) =>
          if isPointInRange d1 ancestorRange r1.sn r1.so &&
              isSplitPoint d1 r1.sn r1.so then
            match splitNodeAt d1 (d1.size + 2) anc r1.sn r1.so with
            | none => none
            | some out2 => some (out2.1, r1, out2.2.1)
          else some (d1, r1, anc)
    else some (d, r, anc)
  match step1 with
  | none => none
  | some (d2, r2, anc2) =>
    if isRemovable d2 ap anc2 then
      match replaceWithOwnChildren d2 anc2 with
      | none => none
      | some d3 => some (d3, r2)
    else some (removeClassEl d2 anc2 ap.cssClass, r2)

/-- undoToRange: split the boundaries, collect the effectively contained
text nodes, undo each one carrying a matched ancestor while re-anchoring
the range over the collected nodes, then normalize. -/
def undoToRange (d : Dom) (ap : Applier) (r : Range) : Option (Dom × Range) :=
  match splitBoundaries d r with
  | none => none
  | some (d1, r1) =>
    let textNodes := rangeTextNodes d1 r1
    match textNodes.head?, textNodes.getLast? with
    | some firstTN, some lastTextNode =>
      match textNodes.foldl (fun acc tn =>
          match acc with
          | none => none
          | some (dd, rr) =>
            let step : Option (Dom × Range) :=
              match getAncestorWithClass dd ap tn with
              | some anc => undoToTextNode dd ap tn rr anc
              | none => some (dd, rr)
            match step with
            | none => none
            | some (dd2, _) =>
              some (dd2, (⟨firstTN, 0, lastTextNode,
                (dd2.getN lastTextNode).data.length⟩ : Range)))
          (some (d1, r1)) with
      | none => none
      | some (d2, r2) =>
        if ap.normalize then postApply d2 textNodes r2 true else some (d2, r2)
    | _, _ => some (d1, r1)

/-- isAppliedToRange: no splitting — every effectively contained text node
with selected text sits under a matching ancestor. -/
def isAppliedToRange (d : Dom) (ap : Applier) (r : Range) : Bool :=
  (rangeTextNodes d r).all (fun tn =>
    !(rangeSelectsAnyText d r tn) || (getAncestorWithClass d ap tn).isSome)

def applySelAux (ap : Applier) : Dom → List Range → List Range → Option (Dom × List Range)
  | d, [], done => some (d, done)
  | d, r :: rest, done =>
    match applyToRange d ap r with
    | none => none
    | some (d2, r2) => applySelAux ap d2 rest (done ++ [r2])

/-- applyToSelection: take the selection's ranges, remove them all, then
while (i--) apply to the range at the highest remaining index and add it
back. -/
def applyToSelection (d : Dom) (ap : Applier) (rs : List Range) :
    Option (Dom × List Range) :=
  applySelAux ap d rs.reverse []

def undoSelAux (ap : Applier) : Dom → List Range → List Range → Option (Dom × List Range)
  | d, [], done => some (d, done)
  | d, r :: rest, done =>
    match undoToRange d ap r with
    | none => none
    | some (d2, r2) => undoSelAux ap d2 rest (done ++ [r2])

/-- undoToSelection: for (i = 0; i < len; ++i) undo each range in
increasing index order. -/
def undoToSelection (d : Dom) (ap : Applier) (rs : List Range) :
    Option (Dom × List Range) :=
  undoSelAux ap d rs []

/-- isAppliedToSelection: while (i--) — false as soon as some range is not
applied, vacuously true on an empty selection. -/
def isAppliedToSelection (d : Dom) (ap : Applier) (rs : List Range) : Bool :=
  rs.reverse.all (fun r => isAppliedToRange d ap r)

def toggleRange (d : Dom) (ap : Applier) (r : Range) : Option (Dom × Range) :=
  if isAppliedToRange d ap r then undoToRange d ap r else applyToRange d ap r

/-- toggleSelection: one selection-wide applied test decides between a
selection-wide undo and a selection-wide apply. -/
def toggleSelection (d : Dom) (ap : Applier) (rs : List Range) :
    Option (Dom × List Range) :=
  if isAppliedToSelection d ap rs then undoToSelection d ap rs
  else applyToSelection d ap rs

/-! ## Claim examples over the applier pipeline -/

def hlClass : String := "hl"

def c1ap : Applier := mkApplier hlClass

/-- Two adjacent mergeable highlight spans; the first one ends in a comment
node, the second wraps the text the range selects. -/
def c1dom : Dom :=
  ⟨[{ kind := .element, tag := "div", display := "block", children := [1, 4] },
    { kind := .element, tag := "span", display := "inline",
      attrs := [("class", "hl")], children := [2, 3] },
    { kind := .text, tag := "#text", data := "a".toList },
    { kind := .comment, tag := "#comment", data := "c".toList },
    { kind := .element, tag := "span", display := "inline",
      attrs := [("class", "hl")], children := [5] },
    { kind := .text, tag := "#text", data := "t".toList }]⟩

def c1range : Range := ⟨5, 0, 5, 1⟩

def c1applied : Dom × Range :=
  (applyToRange c1dom c1ap c1range).getD (c1dom, c1range)

def c1undone : Dom × Range :=
  (undoToRange c1applied.1 c1ap c1applied.2).getD c1applied

def c9dom : Dom :=
  ⟨[{ kind := .element, tag := "div", display := "block", children := [1] },
    { kind := .text, tag := "#text", data := "ab".toList }]⟩

def c9range : Range := ⟨1, 1, 1, 1⟩

def c9undone : Dom × Range :=
  (undoToRange c9dom c1ap c9range).getD (c9dom, c9range)

def c9applied : Dom × Range :=
  (applyToRange c9dom c1ap c9range).getD (c9dom, c9range)

/-- C1: the apply/undo round trip does not preserve the flattened text.
When the selected text node's wrapper has a mergeable previous sibling
whose last child is a comment node, the merge getter returns that comment
with no node-type check; the post-apply merge then moves the selected
character data into the comment and removes the emptied wrapper, and the
undo pass finds no effectively contained text node to restore: a character
of document text is silently lost. -/
theorem c1_roundtrip_loses_text :
    flatTextAux c1dom 10 0 = "at".toList ∧
    adjacentMergeableTextNode c1dom false 5 true = some 3 ∧
    (c1dom.getN 3).kind = NKind.comment ∧
    applyToRange c1dom c1ap c1range = some c1applied ∧
    undoToRange c1applied.1 c1ap c1applied.2 = some c1undone ∧
    flatTextAux c1applied.1 10 0 = "a".toList ∧
    flatTextAux c1undone.1 10 0 = "a".toList := by
  refine ⟨by rfl, by rfl, by rfl, by rfl, by rfl, by rfl, by rfl⟩

/-- C9 counterexample: the collapsed range (text "ab", 1)–(text "ab", 1)
selects no text in any text node, yet applyToRange mutates the tree (the
boundary split is not undone when no text node qualifies) and undoToRange
moves the range's start boundary from offset 1 to offset 0. -/
theorem c9_counterexample :
    (∀ tn, tn < c9dom.size → rangeSelectsAnyText c9dom c9range tn = false) ∧
    applyToRange c9dom c1ap c9range = some c9applied ∧
    c9applied.1 ≠ c9dom ∧ c9applied.2 = c9range ∧
    undoToRange c9dom c1ap c9range = some c9undone ∧
    c9undone.2 = ⟨1, 0, 1, 1⟩ ∧ c9undone.2 ≠ c9range ∧
    isAppliedToRange c9dom c1ap c9range = true := by
  refine ⟨by decide, rfl, by decide, rfl, rfl, rfl, by decide, by decide⟩

/-- C9 (amended): when neither boundary falls strictly inside character
data and no node of the range's tree is an effectively contained text
node, applyToRange returns the document and range unchanged with no
wrapper created, undoToRange leaves both unchanged as well, and
isAppliedToRange is vacuously true. -/
theorem c9_vacuous_range (d : Dom) (ap : Applier) (r : Range)
    (hend : (d.isCharacterDataNode r.en && 0 < r.eo &&
      r.eo < d.getNodeLength r.en) = false)
    (hstart : (d.isCharacterDataNode r.sn && 0 < r.so &&
      r.so < d.getNodeLength r.sn) = false)
    (hempty : rangeTextNodes d r = []) :
    applyToRange d ap r = some (d, r) ∧
    undoToRange d ap r = some (d, r) ∧
    isAppliedToRange d ap r = true := by
  have hsb : splitBoundaries d r = some (d, r) := by
    rw [splitBoundaries]
    rw [if_neg (by simp [hend])]
    exact if_neg (by simp [hstart])
  refine ⟨?_, ?_, ?_⟩
  · rw [applyToRange, hsb]
    simp only [hempty, List.filter_nil, List.isEmpty_nil, if_pos]
  · rw [undoToRange, hsb]
    simp only [hempty, List.head?_nil]
  · rw [isAppliedToRange, hempty]
    rfl

/-- Concrete instance of the C9 vacuous-range theorem: a collapsed range
at the start of the root element. -/
theorem c9_witness :
    applyToRange c9dom c1ap ⟨0, 0, 0, 0⟩ = some (c9dom, ⟨0, 0, 0, 0⟩) ∧
    undoToRange c9dom c1ap ⟨0, 0, 0, 0⟩ = some (c9dom, ⟨0, 0, 0, 0⟩) ∧
    isAppliedToRange c9dom c1ap ⟨0, 0, 0, 0⟩ = true :=
  c9_vacuous_range c9dom c1ap ⟨0, 0, 0, 0⟩ (by decide) (by decide) (by decide)

theorem applySelAux_length (ap : Applier) :
    ∀ (rs : List Range) (d : Dom) (done : List Range) (res : Dom × List Range),
      applySelAux ap d rs done = some res → res.2.length = done.length + rs.length := by
  intro rs
  induction rs with
  | nil =>
    intro d done res h
    rw [applySelAux] at h
    cases h
    simp
  | cons r rest ih =>
    intro d done res h
    rw [applySelAux] at h
    cases happ : applyToRange d ap r with
    | none => rw [happ] at h; exact absurd h (by simp)
    | some pr =>
      obtain ⟨d2, r2⟩ := pr
      rw [happ] at h
      have := ih d2 (done ++ [r2]) res h
      simp only [List.length_append, List.length_cons, List.length_nil] at this ⊢
      omega

theorem undoSelAux_length (ap : Applier) :
    ∀ (rs : List Range) (d : Dom) (done : List Range) (res : Dom × List Range),
      undoSelAux ap d rs done = some res → res.2.length = done.length + rs.length := by
  intro rs
  induction rs with
  | nil =>
    intro d done res h
    rw [undoSelAux] at h
    cases h
    simp
  | cons r rest ih =>
    intro d done res h
    rw [undoSelAux] at h
    cases hu : undoToRange d ap r with
    | none => rw [hu] at h; exact absurd h (by simp)
    | some pr =>
      obtain ⟨d2, r2⟩ := pr
      rw [hu] at h
      have := ih d2 (done ++ [r2]) res h
      simp only [List.length_append, List.length_cons, List.length_nil] at this ⊢
      omega

/-- C10: toggleSelection decides once for the whole selection — the applied
test is the conjunction of the per-range tests (vacuously true when the
selection is empty), and depending on that single test the toggle runs the
selection-wide undo or the selection-wide apply, each of which processes
every range of the selection exactly once. -/
theorem c10_toggleSelection (d : Dom) (ap : Applier) (rs : List Range) :
    isAppliedToSelection d ap rs = rs.all (fun r => isAppliedToRange d ap r) ∧
    isAppliedToSelection d ap ([] : List Range) = true ∧
    toggleSelection d ap rs =
      (if rs.all (fun r => isAppliedToRange d ap r) then undoToSelection d ap rs
       else applyToSelection d ap rs) ∧
    (∀ res, applyToSelection d ap rs = some res → res.2.length = rs.length) ∧
    (∀ res, undoToSelection d ap rs = some res → res.2.length = rs.length) := by
  have hall : isAppliedToSelection d ap rs = rs.all (fun r => isAppliedToRange d ap r) := by
    rw [isAppliedToSelection, List.all_reverse]
  refine ⟨hall, rfl, ?_, ?_, ?_⟩
  · rw [toggleSelection, hall]
  · intro res h
    have := applySelAux_length ap rs.reverse d [] res h
    simpa using this
  · intro res h
    have := undoSelAux_length ap rs d [] res h
    simpa using this

/-- Concrete instance of the C10 theorem on a one-range selection. -/
theorem c10_witness :
    isAppliedToSelection c9dom c1ap [c9range] =
      [c9range].all (fun r => isAppliedToRange c9dom c1ap r) ∧
    isAppliedToSelection c9dom c1ap ([] : List Range) = true ∧
    toggleSelection c9dom c1ap [c9range] =
      (if [c9range].all (fun r => isAppliedToRange c9dom c1ap r) then
        undoToSelection c9dom c1ap [c9range]
       else applyToSelection c9dom c1ap [c9range]) ∧
    (∀ res, applyToSelection c9dom c1ap [c9range] = some res →
      res.2.length = [c9range].length) ∧
    (∀ res, undoToSelection c9dom c1ap [c9range] = some res →
      res.2.length = [c9range].length) :=
  c10_toggleSelection c9dom c1ap [c9range]

end Rangy
